import Mathlib

/-!
Verification development for the query-plans visualiser repository.

The embedding below follows the Python sources:
  qep_processor.py, query_plan_visualizer.py, db_connection_manager.py,
  get_predicates_conditions.py.
Machine floats are modelled as exact rationals, Python dicts as ordered
association lists, and the database as oracle functions.
-/

namespace QPV

/-- Resolution constant RESOLUTION = 10 from qep_processor.py. -/
def RESOLUTION : ℕ := 10

/-- Predicate token PREDICATE_TOKEN from qep_processor.py. -/
def PREDICATE_TOKEN : String := " :varies"

/-- Round a rational to the nearest integer with ties to even, modelling the
Python builtin round (banker rounding), over exact rationals. -/
def rndHalfEven (q : ℚ) : ℤ :=
  let n : ℤ := ⌊q⌋
  let f : ℚ := q - (n : ℚ)
  if f < 1/2 then n
  else if 1/2 < f then n + 1
  else if 2 ∣ n then n else n + 1

/-- Python round(x, 2) modelled over the rationals. -/
def round2 (q : ℚ) : ℚ := (rndHalfEven (q * 100) : ℚ) / 100

/-- The Cost wrapper class of query_plan_visualizer.py: clamp the value to be
non-negative, then round it to two decimal places. -/
def Cost (x : ℚ) : ℚ := round2 (max x 0)

/-- Python list slicing l[::step] for a positive step: keep the entries whose
index is a multiple of step. -/
def sliceEvery (l : List α) (step : ℕ) : List α :=
  (l.enum.filter (fun p => p.1 % step = 0)).map (fun p => p.2)

/-- Python str.replace(old, nw, 1): replace only the first occurrence of old. -/
def replaceFirst (s old nw : String) : String :=
  match s.splitOn old with
  | [] => s
  | [_] => s
  | x :: rest => x ++ nw ++ String.intercalate old rest

/-- Keys of the Python dictionaries that appear in jsondiff results: JSON
string keys, integer list positions, and the three jsondiff symbols of the
explicit syntax. -/
inductive PKey where
  | ks (s : String)
  | ki (n : ℕ)
  | symIns
  | symUpd
  | symDel
deriving DecidableEq, Repr

/-- Python values flowing through the plan-comparison pipeline: JSON values
(strings, numbers, objects, arrays) together with the tuples produced by the
jsondiff explicit syntax.  Dicts are ordered association lists, as Python
dicts preserve insertion order. -/
inductive Py where
  | str (s : String)
  | num (q : ℚ)
  | dict (entries : List (PKey × Py))
  | arr (elems : List Py)
  | tup (elems : List Py)
deriving Repr

mutual

/-- Structural equality of Python values, modelling the Python operator ==
(dict comparison of the fixed-order dicts occurring here). -/
def pyBeq : Py → Py → Bool
  | .str a, .str b => a == b
  | .num a, .num b => a == b
  | .dict a, .dict b => entsBeq a b
  | .arr a, .arr b => pysBeq a b
  | .tup a, .tup b => pysBeq a b
  | _, _ => false

/-- Equality of dict entry lists, pointwise. -/
def entsBeq : List (PKey × Py) → List (PKey × Py) → Bool
  | [], [] => true
  | (k, v) :: r, (k2, v2) :: r2 => k == k2 && pyBeq v v2 && entsBeq r r2
  | _, _ => false

/-- Equality of value lists, pointwise. -/
def pysBeq : List Py → List Py → Bool
  | [], [] => true
  | a :: r, b :: r2 => pyBeq a b && pysBeq r r2
  | _, _ => false

end

mutual

theorem pyBeq_refl : ∀ (a : Py), pyBeq a a = true
  | .str _ => by simp [pyBeq]
  | .num _ => by simp [pyBeq]
  | .dict l => by simpa [pyBeq] using entsBeq_refl l
  | .arr l => by simpa [pyBeq] using pysBeq_refl l
  | .tup l => by simpa [pyBeq] using pysBeq_refl l

theorem entsBeq_refl : ∀ (l : List (PKey × Py)), entsBeq l l = true
  | [] => by simp [entsBeq]
  | (k, v) :: r => by simp [entsBeq, pyBeq_refl v, entsBeq_refl r]

theorem pysBeq_refl : ∀ (l : List Py), pysBeq l l = true
  | [] => by simp [pysBeq]
  | a :: r => by simp [pysBeq, pyBeq_refl a, pysBeq_refl r]

end

/-- Lookup of a key in a Python dict modelled as an association list. -/
def lookupPy (l : List (PKey × Py)) (k : PKey) : Option Py :=
  match l.find? (fun e => e.1 == k) with
  | some e => some e.2
  | none => none

/-- Accumulator of the dict scan of the jsondiff differ: changed entries,
removed keys, the matched-similarity sum, and the matched/removed counts. -/
structure DictAcc where
  changed : List (PKey × Py)
  removed : List PKey
  smatched : ℚ
  nmatched : ℕ
  nremoved : ℕ

/-- Entries of b whose key does not occur in a (the added entries of the
jsondiff dict scan), in the order of b. -/
def addedEntries (a b : List (PKey × Py)) : List (PKey × Py) :=
  b.filter (fun e => (lookupPy a e.1).isNone)

/-- Rendering of a dict key as a Python value, used for the delete payload of
the explicit syntax, which lists the removed keys themselves. -/
def pkeyToPy : PKey → Py
  | .ks s => .str s
  | .ki n => .num n
  | .symIns => .str "insert"
  | .symUpd => .str "update"
  | .symDel => .str "delete"

/-- Modelled from the spec: the dict emitter of the explicit syntax of the
external jsondiff library (spec section 4.5 describes the tree-diff; the
library itself is not part of this repository).  A dict difference is emitted
as a dict holding the added entries under the insert symbol, the changed
entries under the update symbol, and the list of removed keys under the
delete symbol; an empty diff is the empty dict. -/
def emitDictDiff (b : List (PKey × Py)) (s : ℚ) (added changed : List (PKey × Py))
    (removed : List PKey) : Py :=
  if s = 0 ∧ added.isEmpty ∧ changed.isEmpty ∧ removed.isEmpty then Py.dict b
  else if s = 1 ∧ added.isEmpty ∧ changed.isEmpty ∧ removed.isEmpty then Py.dict []
  else Py.dict ((if added.isEmpty then [] else [(PKey.symIns, Py.dict added)]) ++
    (if changed.isEmpty then [] else [(PKey.symUpd, Py.dict changed)]) ++
    (if removed.isEmpty then [] else [(PKey.symDel, Py.arr (removed.map pkeyToPy))]))

/-- Modelled from the spec: the list emitter of the explicit syntax of the
external jsondiff library.  Changed positions are emitted as integer-keyed
entries whose values are the sub-diffs, inserted elements as a list of
(position, value) tuples under the insert symbol, and deleted positions as a
list of integers under the delete symbol. -/
def emitListDiff (Y : List Py) (s : ℚ) (inserted changed : List (ℕ × Py))
    (deleted : List ℕ) : Py :=
  if s = 0 ∧ inserted.isEmpty ∧ changed.isEmpty ∧ deleted.isEmpty then Py.arr Y
  else if s = 1 ∧ inserted.isEmpty ∧ changed.isEmpty ∧ deleted.isEmpty then Py.dict []
  else Py.dict ((changed.map (fun p => (PKey.ki p.1, p.2))) ++
    (if inserted.isEmpty then []
     else [(PKey.symIns, Py.arr (inserted.map (fun p => Py.tup [Py.num p.1, p.2])))]) ++
    (if deleted.isEmpty then []
     else [(PKey.symDel, Py.arr (deleted.map (fun n => Py.num n)))]))

/-- Entry of the similarity table at row i, column j. -/
def simAt (t : List (List (Py × ℚ))) (i j : ℕ) : ℚ :=
  ((t.getD i []).getD j (Py.dict [], 0)).2

/-- Sub-diff of the similarity table at row i, column j. -/
def diffAt (t : List (List (Py × ℚ))) (i j : ℕ) : Py :=
  ((t.getD i []).getD j (Py.dict [], 0)).1



mutual

/-- Computable structural size of a Python value, used as the fuel measure of
the fueled recursions below. -/
def pySize : Py → ℕ
  | .str _ => 1
  | .num _ => 1
  | .dict l => 1 + entsSize l
  | .arr l => 1 + pysSize l
  | .tup l => 1 + pysSize l

/-- Size of a dict entry list. -/
def entsSize : List (PKey × Py) → ℕ
  | [] => 0
  | (_, v) :: r => 1 + pySize v + entsSize r

/-- Size of a value list. -/
def pysSize : List Py → ℕ
  | [] => 0
  | a :: r => 1 + pySize a + pysSize r

end

theorem pySize_pos (a : Py) : 1 ≤ pySize a := by
  cases a <;> simp [pySize]

theorem pySize_lt_of_mem {x : Py} {l : List Py} (h : x ∈ l) : pySize x < pysSize l := by
  induction l with
  | nil => cases h
  | cons a r ih =>
    rcases List.mem_cons.mp h with rfl | h2
    · simp [pysSize]; omega
    · have := ih h2
      simp [pysSize]; omega

/-- Fueled form of the LCS score matrix C of the jsondiff list differ:
C i j is the best total similarity of an alignment of the first i elements of
X with the first j elements of Y.  The fuel only drives the recursion; any
fuel above i + j computes the matrix. -/
def cmatF (t : List (List (Py × ℚ))) : ℕ → ℕ → ℕ → ℚ
  | 0, _, _ => 0
  | _ + 1, 0, _ => 0
  | _ + 1, _ + 1, 0 => 0
  | fuel + 1, i + 1, j + 1 =>
    max (max (cmatF t fuel (i + 1) j) (cmatF t fuel i (j + 1)))
      (cmatF t fuel i j + simAt t i j)

/-- The LCS score matrix C of the jsondiff list differ. -/
def cmat (t : List (List (Py × ℚ))) (i j : ℕ) : ℚ := cmatF t (i + j + 1) i j

theorem cmatF_irrel (t : List (List (Py × ℚ))) :
    ∀ f g i j, i + j < f → i + j < g → cmatF t f i j = cmatF t g i j := by
  intro f
  induction f with
  | zero => intro g i j hf; omega
  | succ f ih =>
    intro g i j hf hg
    match g, hg with
    | g + 1, hg =>
      match i, j with
      | 0, j => rfl
      | i + 1, 0 => rfl
      | i + 1, j + 1 =>
        simp only [cmatF]
        rw [ih g (i + 1) j (by omega) (by omega), ih g i (j + 1) (by omega) (by omega),
          ih g i j (by omega) (by omega)]

theorem cmat_zero_left (t : List (List (Py × ℚ))) (j : ℕ) : cmat t 0 j = 0 := rfl

theorem cmat_zero_right (t : List (List (Py × ℚ))) (i : ℕ) : cmat t (i + 1) 0 = 0 := rfl

theorem cmat_succ (t : List (List (Py × ℚ))) (i j : ℕ) :
    cmat t (i + 1) (j + 1) =
      max (max (cmat t (i + 1) j) (cmat t i (j + 1))) (cmat t i j + simAt t i j) := by
  show cmatF t (i + 1 + (j + 1) + 1) (i + 1) (j + 1) = _
  have h1 : i + 1 + (j + 1) + 1 = (i + j + 2) + 1 := by omega
  rw [h1]
  simp only [cmatF, cmat]
  rw [cmatF_irrel t (i + j + 2) (i + 1 + j + 1) (i + 1) j (by omega) (by omega),
    cmatF_irrel t (i + j + 2) (i + (j + 1) + 1) i (j + 1) (by omega) (by omega),
    cmatF_irrel t (i + j + 2) (i + j + 1) i j (by omega) (by omega)]

/-- Fueled form of the backtracking walk of the jsondiff list differ,
producing the aligned edit script in forward order.  Each emitted entry is
(sign, value, position, similarity): sign 0 is an aligned pair carried with
its sub-diff, sign 1 an insertion of an element of Y, sign -1 a deletion of
an element of X. -/
def traceTbF (t : List (List (Py × ℚ))) (X Y : List Py) :
    ℕ → ℕ → ℕ → List (ℤ × Py × ℕ × ℚ)
  | 0, _, _ => []
  | _ + 1, 0, 0 => []
  | fuel + 1, 0, j + 1 => traceTbF t X Y fuel 0 j ++ [(1, Y.getD j (Py.dict []), j, 0)]
  | fuel + 1, i + 1, 0 => traceTbF t X Y fuel i 0 ++ [(-1, X.getD i (Py.dict []), i, 0)]
  | fuel + 1, i + 1, j + 1 =>
    if 0 < simAt t i j ∧ cmat t (i + 1) (j + 1) = cmat t i j + simAt t i j then
      traceTbF t X Y fuel i j ++ [(0, diffAt t i j, j, simAt t i j)]
    else if cmat t (i + 1) j ≥ cmat t i (j + 1) then
      traceTbF t X Y fuel (i + 1) j ++ [(1, Y.getD j (Py.dict []), j, 0)]
    else
      traceTbF t X Y fuel i (j + 1) ++ [(-1, X.getD i (Py.dict []), i, 0)]

/-- The backtracking walk of the jsondiff list differ. -/
def traceTb (t : List (List (Py × ℚ))) (X Y : List Py) (i j : ℕ) :
    List (ℤ × Py × ℕ × ℚ) := traceTbF t X Y (i + j + 1) i j

theorem traceTbF_irrel (t : List (List (Py × ℚ))) (X Y : List Py) :
    ∀ f g i j, i + j < f → i + j < g → traceTbF t X Y f i j = traceTbF t X Y g i j := by
  intro f
  induction f with
  | zero => intro g i j hf; omega
  | succ f ih =>
    intro g i j hf hg
    match g, hg with
    | g + 1, hg =>
      match i, j with
      | 0, 0 => rfl
      | 0, j + 1 => simp only [traceTbF]; rw [ih g 0 j (by omega) (by omega)]
      | i + 1, 0 => simp only [traceTbF]; rw [ih g i 0 (by omega) (by omega)]
      | i + 1, j + 1 =>
        simp only [traceTbF]
        split
        · rw [ih g i j (by omega) (by omega)]
        · split
          · rw [ih g (i + 1) j (by omega) (by omega)]
          · rw [ih g i (j + 1) (by omega) (by omega)]

theorem traceTb_zero (t : List (List (Py × ℚ))) (X Y : List Py) : traceTb t X Y 0 0 = [] := rfl

theorem traceTb_ins (t : List (List (Py × ℚ))) (X Y : List Py) (j : ℕ) :
    traceTb t X Y 0 (j + 1) = traceTb t X Y 0 j ++ [(1, Y.getD j (Py.dict []), j, 0)] := by
  show traceTbF t X Y (0 + (j + 1) + 1) 0 (j + 1) = _
  have h1 : 0 + (j + 1) + 1 = (j + 1) + 1 := by omega
  rw [h1]
  simp only [traceTbF, traceTb]
  rw [traceTbF_irrel t X Y (j + 1) (0 + j + 1) 0 j (by omega) (by omega)]

theorem traceTb_del (t : List (List (Py × ℚ))) (X Y : List Py) (i : ℕ) :
    traceTb t X Y (i + 1) 0 = traceTb t X Y i 0 ++ [(-1, X.getD i (Py.dict []), i, 0)] := by
  show traceTbF t X Y (i + 1 + 0 + 1) (i + 1) 0 = _
  have h1 : i + 1 + 0 + 1 = (i + 1) + 1 := by omega
  rw [h1]
  simp only [traceTbF, traceTb]

theorem traceTb_succ (t : List (List (Py × ℚ))) (X Y : List Py) (i j : ℕ) :
    traceTb t X Y (i + 1) (j + 1) =
      (if 0 < simAt t i j ∧ cmat t (i + 1) (j + 1) = cmat t i j + simAt t i j then
        traceTb t X Y i j ++ [(0, diffAt t i j, j, simAt t i j)]
      else if cmat t (i + 1) j ≥ cmat t i (j + 1) then
        traceTb t X Y (i + 1) j ++ [(1, Y.getD j (Py.dict []), j, 0)]
      else
        traceTb t X Y i (j + 1) ++ [(-1, X.getD i (Py.dict []), i, 0)]) := by
  show traceTbF t X Y (i + 1 + (j + 1) + 1) (i + 1) (j + 1) = _
  have h1 : i + 1 + (j + 1) + 1 = (i + j + 2) + 1 := by omega
  rw [h1]
  simp only [traceTbF, traceTb]
  rw [traceTbF_irrel t X Y (i + j + 2) (i + j + 1) i j (by omega) (by omega),
    traceTbF_irrel t X Y (i + j + 2) (i + 1 + j + 1) (i + 1) j (by omega) (by omega),
    traceTbF_irrel t X Y (i + j + 2) (i + (j + 1) + 1) i (j + 1) (by omega) (by omega)]

/-- Assembly step of the jsondiff list differ: split the edit script into
inserted, deleted and changed parts, total the similarity, and emit.  The
deleted positions are accumulated by prepending, hence the reversal. -/
def listDiffAssemble (X Y : List Py) (entries : List (ℤ × Py × ℕ × ℚ)) : Py × ℚ :=
  let inserted := entries.filterMap (fun e => if e.1 = 1 then some (e.2.2.1, e.2.1) else none)
  let deleted := (entries.filterMap (fun e => if e.1 = -1 then some e.2.2.1 else none)).reverse
  let changed := entries.filterMap
    (fun e => if e.1 = 0 ∧ e.2.2.2 < 1 then some (e.2.2.1, e.2.1) else none)
  let totS := (entries.map (fun e => e.2.2.2)).sum
  let totN := X.length + inserted.length
  let s : ℚ := if totN = 0 then 1 else totS / (totN : ℚ)
  (emitListDiff Y s inserted changed deleted, s)

mutual

/-- Fueled form of the recursive differ of the external jsondiff library in
explicit syntax.  Two dicts are compared key by key, two lists by a
similarity-guided LCS alignment, and two scalars by equality; the similarity
returned alongside the diff is 1 for identical values and 0 for completely
different ones.  The fuel only drives the recursion; any fuel above the size
of the first argument computes the diff. -/
def objDiffF : ℕ → Py → Py → Py × ℚ
  | 0, _, _ => (Py.dict [], 1)
  | fuel + 1, .dict a, .dict b =>
    let acc := dictScanF fuel b a
    let added := addedEntries a b
    let nTot := acc.nremoved + acc.nmatched + added.length
    let s : ℚ := if nTot = 0 then 1 else acc.smatched / (nTot : ℚ)
    (emitDictDiff b s added acc.changed acc.removed, s)
  | fuel + 1, .arr a, .arr b => listDiffF fuel a b
  | fuel + 1, .tup a, .tup b => listDiffF fuel a b
  | _ + 1, a, b => if pyBeq a b then (Py.dict [], 1) else (b, 0)

/-- Fueled scan of the first dict of a dict comparison against the second
dict b, accumulating changed entries, removed keys, and the tallies. -/
def dictScanF : ℕ → List (PKey × Py) → List (PKey × Py) → DictAcc
  | 0, _, _ => ⟨[], [], 0, 0, 0⟩
  | _ + 1, _, [] => ⟨[], [], 0, 0, 0⟩
  | fuel + 1, b, (k, v) :: rest =>
    let acc := dictScanF fuel b rest
    match lookupPy b k with
    | none => ⟨acc.changed, k :: acc.removed, acc.smatched, acc.nmatched, acc.nremoved + 1⟩
    | some w =>
      let ds := objDiffF fuel v w
      ⟨(if ds.2 < 1 then (k, ds.1) :: acc.changed else acc.changed), acc.removed,
        acc.smatched + (1/2 + ds.2 / 2), acc.nmatched + 1, acc.nremoved⟩

/-- Fueled jsondiff list differ: build the pairwise table, backtrack the
score matrix, and assemble the edit script. -/
def listDiffF : ℕ → List Py → List Py → Py × ℚ
  | 0, _, _ => (Py.dict [], 1)
  | fuel + 1, X, Y =>
    let table := X.map (fun x => Y.map (fun y => objDiffF fuel x y))
    listDiffAssemble X Y (traceTb table X Y X.length Y.length)

end

/-- Modelled from the spec: the recursive differ of the external jsondiff
library in explicit syntax (the generic tree-diff of spec section 4.5; the
library itself is not part of this repository). -/
def objDiff (a b : Py) : Py × ℚ := objDiffF (1 + pySize a) a b

/-- Scan of the first dict of a dict comparison against the second dict b. -/
def dictScan (b l : List (PKey × Py)) : DictAcc := dictScanF (1 + entsSize l) b l

/-- The jsondiff list differ. -/
def listDiffPy (X Y : List Py) : Py × ℚ := listDiffF (1 + pysSize X) X Y

theorem diffF_irrel :
    ∀ f, (∀ g (a b : Py), pySize a < f → pySize a < g → objDiffF f a b = objDiffF g a b) ∧
      (∀ g (b l : List (PKey × Py)), entsSize l < f → entsSize l < g →
        dictScanF f b l = dictScanF g b l) ∧
      (∀ g (X Y : List Py), pysSize X < f → pysSize X < g → listDiffF f X Y = listDiffF g X Y) := by
  intro f
  induction f with
  | zero =>
    exact ⟨fun g a b hf => absurd hf (by omega), fun g b l hf => absurd hf (by omega),
      fun g X Y hf => absurd hf (by omega)⟩
  | succ f ih =>
    refine ⟨?_, ?_, ?_⟩
    · intro g a b hf hg
      match g, hg with
      | g + 1, hg =>
        cases a with
        | dict ea =>
          cases b with
          | dict eb =>
            simp only [objDiffF]
            rw [ih.2.1 g eb ea (by simp [pySize] at hf; omega) (by simp [pySize] at hg; omega)]
          | _ => rfl
        | arr ea =>
          cases b with
          | arr eb =>
            simp only [objDiffF]
            rw [ih.2.2 g ea eb (by simp [pySize] at hf; omega) (by simp [pySize] at hg; omega)]
          | _ => rfl
        | tup ea =>
          cases b with
          | tup eb =>
            simp only [objDiffF]
            rw [ih.2.2 g ea eb (by simp [pySize] at hf; omega) (by simp [pySize] at hg; omega)]
          | _ => rfl
        | _ => rfl
    · intro g b l hf hg
      match g, hg with
      | g + 1, hg =>
        match l with
        | [] => rfl
        | (k, v) :: rest =>
          simp only [dictScanF]
          rw [ih.2.1 g b rest (by simp [entsSize] at hf; omega)
            (by simp [entsSize] at hg; omega)]
          cases lookupPy b k with
          | none => rfl
          | some w =>
            simp only [ih.1 g v w (by simp [entsSize] at hf; omega)
              (by simp [entsSize] at hg; omega)]
    · intro g X Y hf hg
      match g, hg with
      | g + 1, hg =>
        simp only [listDiffF]
        have htab : X.map (fun x => Y.map (fun y => objDiffF f x y)) =
            X.map (fun x => Y.map (fun y => objDiffF g x y)) := by
          apply List.map_congr_left
          intro x hx
          apply List.map_congr_left
          intro y _
          have hs := pySize_lt_of_mem hx
          exact ih.1 g x y (by omega) (by omega)
        rw [htab]

theorem objDiff_dict (a b : List (PKey × Py)) :
    objDiff (.dict a) (.dict b) =
      (let acc := dictScan b a
       let added := addedEntries a b
       let nTot := acc.nremoved + acc.nmatched + added.length
       let s : ℚ := if nTot = 0 then 1 else acc.smatched / (nTot : ℚ)
       (emitDictDiff b s added acc.changed acc.removed, s)) := by
  show objDiffF (1 + pySize (Py.dict a)) _ _ = _
  have h1 : 1 + pySize (Py.dict a) = (1 + entsSize a) + 1 := by simp [pySize]; omega
  rw [h1]
  simp only [objDiffF, dictScan]

theorem objDiff_arr (a b : List Py) : objDiff (.arr a) (.arr b) = listDiffPy a b := by
  show objDiffF (1 + pySize (Py.arr a)) _ _ = _
  have h1 : 1 + pySize (Py.arr a) = (1 + pysSize a) + 1 := by simp [pySize]; omega
  rw [h1]
  simp only [objDiffF, listDiffPy]

theorem objDiff_str (s1 s2 : String) :
    objDiff (.str s1) (.str s2) =
      (if s1 == s2 then (Py.dict [], 1) else (Py.str s2, 0)) := by
  show objDiffF (1 + pySize (Py.str s1)) _ _ = _
  simp only [pySize]
  simp only [objDiffF, pyBeq]

theorem objDiff_num (q1 q2 : ℚ) :
    objDiff (.num q1) (.num q2) =
      (if q1 == q2 then (Py.dict [], 1) else (Py.num q2, 0)) := by
  show objDiffF (1 + pySize (Py.num q1)) _ _ = _
  simp only [pySize]
  simp only [objDiffF, pyBeq]

theorem dictScan_nil (b : List (PKey × Py)) : dictScan b [] = ⟨[], [], 0, 0, 0⟩ := rfl

theorem dictScan_cons (b : List (PKey × Py)) (k : PKey) (v : Py) (rest : List (PKey × Py)) :
    dictScan b ((k, v) :: rest) =
      (let acc := dictScan b rest
       match lookupPy b k with
       | none => ⟨acc.changed, k :: acc.removed, acc.smatched, acc.nmatched, acc.nremoved + 1⟩
       | some w =>
         let ds := objDiff v w
         ⟨(if ds.2 < 1 then (k, ds.1) :: acc.changed else acc.changed), acc.removed,
           acc.smatched + (1/2 + ds.2 / 2), acc.nmatched + 1, acc.nremoved⟩) := by
  show dictScanF (1 + entsSize ((k, v) :: rest)) b _ = _
  have h1 : 1 + entsSize ((k, v) :: rest) = (1 + pySize v + entsSize rest) + 1 := by
    simp [entsSize]; omega
  rw [h1]
  simp only [dictScanF]
  rw [(diffF_irrel (1 + pySize v + entsSize rest)).2.1 (1 + entsSize rest) b rest
    (by omega) (by omega)]
  cases lookupPy b k with
  | none => rfl
  | some w =>
    simp only [(diffF_irrel (1 + pySize v + entsSize rest)).1 (1 + pySize v) v w
      (by omega) (by omega)]
    rfl

theorem listDiffPy_eq (X Y : List Py) :
    listDiffPy X Y =
      listDiffAssemble X Y
        (traceTb (X.map (fun x => Y.map (fun y => objDiff x y))) X Y X.length Y.length) := by
  show listDiffF (1 + pysSize X) X Y = _
  have h1 : 1 + pysSize X = (pysSize X) + 1 := by omega
  rw [h1]
  simp only [listDiffF]
  have htab : X.map (fun x => Y.map (fun y => objDiffF (pysSize X) x y)) =
      X.map (fun x => Y.map (fun y => objDiff x y)) := by
    apply List.map_congr_left
    intro x hx
    apply List.map_congr_left
    intro y _
    have hs := pySize_lt_of_mem hx
    exact (diffF_irrel (pysSize X)).1 (1 + pySize x) x y (by omega) (by omega)
  rw [htab]

/-- The function compareQEPs of qep_processor.py: diff two QEPs with the
jsondiff library in explicit syntax. -/
def compareQEPs (qep1 qep2 : Py) : Py := (objDiff qep1 qep2).1

mutual

/-- Fueled form of the function findValueInNestedDict of qep_processor.py:
return the value of the key if present, otherwise search the dict-valued
entries recursively; non-dict values (lists, tuples, scalars) are never
entered. -/
def findNestedF : ℕ → Py → String → Option Py
  | 0, _, _ => none
  | fuel + 1, .dict entries, key =>
    (match lookupPy entries (.ks key) with
     | some v => some v
     | none => findValsF fuel entries key)
  | _ + 1, _, _ => none

/-- Fueled walk of the entries of a dict, recursing into dict values only,
returning the first hit. -/
def findValsF : ℕ → List (PKey × Py) → String → Option Py
  | 0, _, _ => none
  | _ + 1, [], _ => none
  | fuel + 1, (_, v) :: rest, key =>
    match v with
    | .dict d =>
      (match findNestedF fuel (.dict d) key with
       | some r => some r
       | none => findValsF fuel rest key)
    | _ => findValsF fuel rest key

end

/-- The function findValueInNestedDict of qep_processor.py. -/
def findValueInNestedDict (obj : Py) (key : String) : Option Py :=
  findNestedF (1 + pySize obj) obj key

/-- Walk of the entries of a dict, recursing into dict values only. -/
def findInDictValues (l : List (PKey × Py)) (key : String) : Option Py :=
  findValsF (1 + entsSize l) l key

theorem findF_irrel :
    ∀ f, (∀ g (obj : Py) key, pySize obj < f → pySize obj < g →
        findNestedF f obj key = findNestedF g obj key) ∧
      (∀ g (l : List (PKey × Py)) key, entsSize l < f → entsSize l < g →
        findValsF f l key = findValsF g l key) := by
  intro f
  induction f with
  | zero =>
    exact ⟨fun g obj key hf => absurd hf (by omega), fun g l key hf => absurd hf (by omega)⟩
  | succ f ih =>
    refine ⟨?_, ?_⟩
    · intro g obj key hf hg
      match g, hg with
      | g + 1, hg =>
        cases obj with
        | dict entries =>
          simp only [findNestedF]
          rw [ih.2 g entries key (by simp [pySize] at hf; omega)
            (by simp [pySize] at hg; omega)]
        | str s => rfl
        | num q => rfl
        | arr l => rfl
        | tup l => rfl
    · intro g l key hf hg
      match g, hg with
      | g + 1, hg =>
        match l with
        | [] => rfl
        | (k, v) :: rest =>
          simp only [findValsF]
          have hrest : entsSize rest < f := by simp [entsSize] at hf; omega
          have hrest2 : entsSize rest < g := by simp [entsSize] at hg; omega
          cases v with
          | dict d =>
            simp only []
            rw [ih.1 g (.dict d) key (by simp [entsSize] at hf; omega)
              (by simp [entsSize] at hg; omega), ih.2 g rest key hrest hrest2]
          | str s => exact ih.2 g rest key hrest hrest2
          | num q => exact ih.2 g rest key hrest hrest2
          | arr a => exact ih.2 g rest key hrest hrest2
          | tup a => exact ih.2 g rest key hrest hrest2

theorem findValueInNestedDict_dict (entries : List (PKey × Py)) (key : String) :
    findValueInNestedDict (.dict entries) key =
      (match lookupPy entries (.ks key) with
       | some v => some v
       | none => findInDictValues entries key) := by
  show findNestedF (1 + pySize (Py.dict entries)) _ _ = _
  have h1 : 1 + pySize (Py.dict entries) = (1 + entsSize entries) + 1 := by
    simp [pySize]; omega
  rw [h1]
  simp only [findNestedF, findInDictValues]

theorem findValueInNestedDict_non_dict (obj : Py) (key : String)
    (h : ∀ entries, obj ≠ Py.dict entries) :
    findValueInNestedDict obj key = none := by
  cases obj with
  | dict entries => exact absurd rfl (h entries)
  | str s => rfl
  | num q => rfl
  | arr l =>
    show findNestedF (1 + pySize (Py.arr l)) _ _ = none
    rw [Nat.add_comm]
    rfl
  | tup l =>
    show findNestedF (1 + pySize (Py.tup l)) _ _ = none
    rw [Nat.add_comm]
    rfl

theorem findInDictValues_nil (key : String) : findInDictValues [] key = none := rfl

theorem findInDictValues_cons (k : PKey) (v : Py) (rest : List (PKey × Py)) (key : String) :
    findInDictValues ((k, v) :: rest) key =
      (match v with
       | .dict d =>
         (match findValueInNestedDict (.dict d) key with
          | some r => some r
          | none => findInDictValues rest key)
       | _ => findInDictValues rest key) := by
  show findValsF (1 + entsSize ((k, v) :: rest)) _ _ = _
  have h1 : 1 + entsSize ((k, v) :: rest) = (1 + pySize v + entsSize rest) + 1 := by
    simp [entsSize]; omega
  rw [h1]
  simp only [findValsF]
  cases v with
  | dict d =>
    simp only []
    rw [(findF_irrel (1 + pySize (Py.dict d) + entsSize rest)).1 (1 + pySize (Py.dict d))
      (.dict d) key (by omega) (by omega),
      (findF_irrel (1 + pySize (Py.dict d) + entsSize rest)).2 (1 + entsSize rest) rest key
      (by omega) (by omega)]
    rfl
  | str s =>
    exact (findF_irrel (1 + pySize (Py.str s) + entsSize rest)).2 (1 + entsSize rest) rest key
      (by omega) (by omega)
  | num q =>
    exact (findF_irrel (1 + pySize (Py.num q) + entsSize rest)).2 (1 + entsSize rest) rest key
      (by omega) (by omega)
  | arr a =>
    exact (findF_irrel (1 + pySize (Py.arr a) + entsSize rest)).2 (1 + entsSize rest) rest key
      (by omega) (by omega)
  | tup a =>
    exact (findF_irrel (1 + pySize (Py.tup a) + entsSize rest)).2 (1 + entsSize rest) rest key
      (by omega) (by omega)

/-- The plan-equivalence check of qep_processor.py (used both by the
enumeration loops and by compareActualQEP): two QEPs are judged the same
plan exactly when the recursive search finds no Node Type key in their
jsondiff. -/
def isEquivalent (qep1 qep2 : Py) : Bool :=
  (findValueInNestedDict (compareQEPs qep1 qep2) "Node Type").isNone

/-- A raw plan node as returned by the engine (the RawPlan of the spec data
model): operator kind, total accumulated cost, estimated row count, optional
filter text, optional relation name, and the ordered child plans. -/
inductive RawPlan where
  | node (nodeType : String) (totalCost : ℚ) (planRows : ℤ)
      (filter relationName : Option String) (plans : List RawPlan)

/-- Operator kind of a raw plan node. -/
def RawPlan.nodeType : RawPlan → String
  | .node ty _ _ _ _ _ => ty

/-- Total accumulated cost of a raw plan node. -/
def RawPlan.totalCost : RawPlan → ℚ
  | .node _ tc _ _ _ _ => tc

/-- Child plans of a raw plan node. -/
def RawPlan.plans : RawPlan → List RawPlan
  | .node _ _ _ _ _ ps => ps

/-- An annotated plan node (the AnnotatedPlanNode of the spec data model):
the raw fields plus the generated human-readable identifier and the own
cost. -/
inductive APlan where
  | node (pid : String) (cost : ℚ) (nodeType : String) (totalCost : ℚ) (planRows : ℤ)
      (filter relationName : Option String) (plans : List APlan)

/-- Identifier of an annotated plan node. -/
def APlan.pid : APlan → String
  | .node pid _ _ _ _ _ _ _ => pid

/-- Own cost of an annotated plan node. -/
def APlan.cost : APlan → ℚ
  | .node _ c _ _ _ _ _ _ => c

/-- Total accumulated cost of an annotated plan node. -/
def APlan.totalCost : APlan → ℚ
  | .node _ _ _ tc _ _ _ _ => tc

/-- Child plans of an annotated plan node. -/
def APlan.plans : APlan → List APlan
  | .node _ _ _ _ _ _ _ ps => ps

mutual

/-- The function generate_ids_and_cost of query_plan_visualizer.py: assign
each node the identifier nodeType_k where k is the per-kind counter (missing
kinds count from 1), increment the counter, recurse into the children, and
set the own cost to Cost of the total cost minus the sum of the Cost of the
children total costs.  The Python dict name_counter is modelled as a total
function with default 1. -/
def genIdsCost (ctr : String → ℕ) : RawPlan → APlan × (String → ℕ)
  | .node ty tc pr fl rn ps =>
    let k := ctr ty
    let ctr1 : String → ℕ := fun s => if s = ty then k + 1 else ctr s
    let res := genIdsCostList ctr1 ps
    let childrenCosts : ℚ := (ps.map (fun c => Cost c.totalCost)).sum
    (.node (ty ++ "_" ++ Nat.repr k) (Cost (tc - childrenCosts)) ty tc pr fl rn res.1, res.2)

/-- Traversal of a child list, threading the name counter left to right. -/
def genIdsCostList (ctr : String → ℕ) : List RawPlan → List APlan × (String → ℕ)
  | [] => ([], ctr)
  | p :: rest =>
    let r1 := genIdsCost ctr p
    let r2 := genIdsCostList r1.2 rest
    (r1.1 :: r2.1, r2.2)

end

/-- Annotation of a whole plan: the top-level call of generate_ids_and_cost
with a fresh counter (the Python None default creates an empty dict, so
every kind starts at 1). -/
def annotatePlan (p : RawPlan) : APlan := (genIdsCost (fun _ => 1) p).1

mutual

/-- Identifiers of an annotated plan in pre-order. -/
def APlan.idsOf : APlan → List String
  | .node pid _ _ _ _ _ _ ps => pid :: idsOfList ps

/-- Identifiers of a list of annotated plans in pre-order. -/
def idsOfList : List APlan → List String
  | [] => []
  | p :: rest => APlan.idsOf p ++ idsOfList rest

end

mutual

/-- Forgetting the annotation of an annotated plan, recovering the raw
fields that generate_ids_and_cost reads. -/
def APlan.toRaw : APlan → RawPlan
  | .node _ _ ty tc pr fl rn ps => .node ty tc pr fl rn (toRawList ps)

/-- Forgetting the annotations of a list of annotated plans. -/
def toRawList : List APlan → List RawPlan
  | [] => []
  | p :: rest => APlan.toRaw p :: toRawList rest

end

mutual

/-- Check of a Boolean property on every node of an annotated plan. -/
def APlan.checkAll (P : APlan → Bool) : APlan → Bool
  | .node pid c ty tc pr fl rn ps =>
    P (.node pid c ty tc pr fl rn ps) && checkAllList P ps

/-- Check of a Boolean property on every node of a list of annotated plans. -/
def checkAllList (P : APlan → Bool) : List APlan → Bool
  | [] => true
  | p :: rest => APlan.checkAll P p && checkAllList P rest

end

/-- The function readHistogram of qep_processor.py, applied to the parsed
histogram bound list (the string parsing of the pg_stats row into floats is
external glue; the bounds arrive as rationals).  The step is
100 / RESOLUTION + 1 with integer division.  Both the lower-bound list and
the upper-bound list are the same slice of the bound list. -/
def readHistogram (bounds : List ℚ) : List ℚ × List ℚ :=
  let step := 100 / RESOLUTION + 1
  let histogramValues := sliceEvery bounds step
  let histogramNextValues := sliceEvery bounds step
  let predicateValues := (List.range RESOLUTION).map
    (fun i => (1 : ℚ) / (2 * (RESOLUTION : ℚ)) + (i : ℚ) * (1 / (RESOLUTION : ℚ)))
  let selValues := (histogramValues.zip histogramNextValues).map
    (fun p => (p.2 - p.1) * (1/2) + p.1)
  (selValues, predicateValues)

/-- The function convert2DArray of qep_processor.py, driven by a fuel equal
to the list length: split a list into chunks of n elements.  The Python code
is only ever called with n = RESOLUTION = 10; n = 0 would raise in Python
and is out of scope. -/
def convert2DArrayF : ℕ → List α → ℕ → List (List α)
  | 0, _, _ => []
  | _ + 1, [], _ => []
  | fuel + 1, l, n => l.take n :: convert2DArrayF fuel (l.drop n) n

/-- The function convert2DArray of qep_processor.py. -/
def convert2DArray (l : List α) (n : ℕ) : List (List α) := convert2DArrayF l.length l n

/-- Loop body of splitListOfTuplesByKey of qep_processor.py: append the item
to the bucket of its key, or open a fresh bucket at the end. -/
def splitStep (acc : List (ℕ × List (ℕ × ℕ × ℕ))) (item : ℕ × ℕ × ℕ) :
    List (ℕ × List (ℕ × ℕ × ℕ)) :=
  if acc.any (fun g => g.1 = item.1)
  then acc.map (fun g => if g.1 = item.1 then (g.1, g.2 ++ [item]) else g)
  else acc ++ [(item.1, [item])]

/-- The function splitListOfTuplesByKey of qep_processor.py: a Python dict
keyed by the first tuple component, in first-encounter order, each group in
input order. -/
def splitListOfTuplesByKey (items : List (ℕ × ℕ × ℕ)) : List (ℕ × List (ℕ × ℕ × ℕ)) :=
  items.foldl splitStep []

/-- Strict lexicographic order of the (plan, row, col) triples, the order
underlying the Python builtins min and max on tuples. -/
def tripleLt (a b : ℕ × ℕ × ℕ) : Bool :=
  a.1 < b.1 ∨ (a.1 = b.1 ∧ (a.2.1 < b.2.1 ∨ (a.2.1 = b.2.1 ∧ a.2.2 < b.2.2)))

/-- Python min of a tuple list: the first lexicographically least element.
The empty case cannot occur (groups are nonempty); Python would raise. -/
def pyMinT : List (ℕ × ℕ × ℕ) → ℕ × ℕ × ℕ
  | [] => (0, 0, 0)
  | x :: xs => xs.foldl (fun m y => if tripleLt y m then y else m) x

/-- Python max of a tuple list: the first lexicographically greatest
element.  The empty case cannot occur; Python would raise. -/
def pyMaxT : List (ℕ × ℕ × ℕ) → ℕ × ℕ × ℕ
  | [] => (0, 0, 0)
  | x :: xs => xs.foldl (fun m y => if tripleLt m y then y else m) x

/-- Stable insertion of a triple into a list sorted by plan index, placing
the new element before later elements of equal key: the building block of
the stable sort semantics of the Python method list.sort with a key. -/
def insertByPlan (x : ℕ × ℕ × ℕ) : List (ℕ × ℕ × ℕ) → List (ℕ × ℕ × ℕ)
  | [] => [x]
  | y :: ys => if y.1 < x.1 then y :: insertByPlan x ys else x :: y :: ys

/-- Stable sort by plan index: the semantics of the call
list.sort with key lambda x: x[0] in retrieveSelectivityRanges. -/
def sortByPlan (l : List (ℕ × ℕ × ℕ)) : List (ℕ × ℕ × ℕ) :=
  l.foldr insertByPlan []

/-- Grid flattening of retrieveSelectivityRanges of qep_processor.py:
reshape the plan index list to a matrix of RESOLUTION columns and flatten it
to (plan, row, col) triples in row-major order. -/
def cellTriples (planIndexes : List ℕ) : List (ℕ × ℕ × ℕ) :=
  ((convert2DArray planIndexes RESOLUTION).enum.map
    (fun rp => rp.2.enum.map (fun cp => (cp.2, rp.1, cp.1)))).flatten

/-- The function retrieveSelectivityRanges of qep_processor.py: flatten the
reshaped grid to (plan, row, col) triples, sort by plan (list.sort with a
key is a stable sort), group by plan, and for each group pair the rows of
the lexicographically extremal triples and their columns.  The result dict
is keyed by the 1-based group position. -/
def retrieveSelectivityRanges (planIndexes : List ℕ) : List (ℕ × ((ℕ × ℕ) × (ℕ × ℕ))) :=
  let tuples := cellTriples planIndexes
  let sorted := sortByPlan tuples
  let groups := (splitListOfTuplesByKey sorted).map (fun g => g.2)
  groups.enum.map (fun g =>
    let mn := pyMinT g.2
    let mx := pyMaxT g.2
    (g.1 + 1, ((mn.2.1, mx.2.1), (mn.2.2, mx.2.2))))

/-- Percentage bounds that generateFoundExplanation of qep_processor.py
interpolates into an explanation string for one dimension pair: the lower
grid coordinate times 10 and the upper grid coordinate plus one times 10. -/
def percentRange (p : ℕ × ℕ) : ℕ × ℕ := (p.1 * 10, (p.2 + 1) * 10)

/-- A filtering clause as produced by the parser collaborator
(get_predicates_conditions.py) and consumed by convertToQueryTemplate: the
clause text, the text left of the comparison operator (the first entry of
the regular-expression split, stripped), and whether the sanitized
right-hand side parses as a float.  The regular-expression split and the
float parse of the Python code are external string glue, modelled by the
two fields. -/
structure Clause where
  text : String
  lhs : String
  rhsNumeric : Bool
deriving DecidableEq, Repr

/-- Result of convertToQueryTemplate of qep_processor.py: the
RET_CONVERT_QUERY_ERR return with no payload, or the RET_CONVERT_QUERY_OK
return carrying the predicate attributes and the template. -/
inductive ConvertResult where
  | convErr
  | convOk (attrs : List String) (template : String)
deriving DecidableEq, Repr

/-- Python attribute.split(".")[-1], applied when the attribute contains a
dot (for dot-free strings the split returns the string itself, so the guard
makes no difference). -/
def lastDotComponent (s : String) : String := ((s.splitOn ".").reverse).headD s

/-- Attributes surviving the numeric filtering of convertToQueryTemplate:
every attribute equal to the left-hand side of a clause whose right-hand
side is not numeric is dropped. -/
def filteredAttrs (attrs : List String) (clauses : List Clause) : List String :=
  let nonNumeric := clauses.filter (fun c => !c.rhsNumeric)
  attrs.filter (fun a => !(nonNumeric.any (fun c => c.lhs = a)))

/-- The function convertToQueryTemplate of qep_processor.py, over the parsed
query (attrs and clauses come from get_predicates_conditions.get_var_column).
Clauses with a non-numeric right-hand side are dropped together with their
attributes; dotted attributes lose their table qualifier; an empty surviving
attribute list is the error return; otherwise each surviving clause text is
replaced (all occurrences) by the attribute plus the predicate token.
Python would raise IndexError were there more surviving clauses than
attributes; the model pads with the empty string there. -/
def convertToQueryTemplate (query : String) (attrs : List String) (clauses : List Clause) :
    ConvertResult :=
  let nonNumeric := clauses.filter (fun c => !c.rhsNumeric)
  let attrs1 := attrs.filter (fun a => !(nonNumeric.any (fun c => c.lhs = a)))
  let clauses1 := clauses.filter (fun c => !(nonNumeric.contains c))
  let attrs2 := attrs1.map lastDotComponent
  if attrs2.length = 0 then .convErr
  else
    .convOk attrs2 (clauses1.enum.foldl (fun q p =>
      q.replace p.2.text (((attrs2.get? p.1).getD "") ++ PREDICATE_TOKEN)) query)

/-- The database collaborator (db_connection_manager.py) reduced to the
oracle functions the processor calls.  getQEP returns none when the engine
rejects or fails the query: Postgres_Connect.getQEP catches the database
exception, prints it, and falls through returning Python None. -/
structure Comm where
  findRelation : String → String
  getHistogram : String → String → List ℚ
  getCardinality : String → ℤ
  getQEP : String → Option Py

/-- Abnormal terminations of the processing pipeline: processExit models the
Python quit() call (the interpreter exits), noneNotSubscriptable models the
TypeError raised by subscripting the None that getQEP returned after
swallowing an engine error.  Neither value carries any further data, exactly
as the Python counterparts carry no grid point or query text. -/
inductive PyAbort where
  | processExit
  | noneNotSubscriptable
deriving DecidableEq, Repr

/-- Loop of generatePredicateValues of qep_processor.py: for each attribute,
resolve the relation, fetch the histogram (the unused cardinality fetch is
dropped), read the selectivity values, and extend dimension 1 for index 0,
dimension 2 for index 1; any further attribute prints an error and calls
quit(), terminating the process. -/
def genPredGo (comm : Comm) : ℕ → List String → List ℚ → List ℚ →
    Except PyAbort (List ℚ × List ℚ)
  | _, [], d1, d2 => .ok (d1, d2)
  | index, att :: rest, d1, d2 =>
    let schema := comm.findRelation att
    let histogram := comm.getHistogram schema att
    let selVals := (readHistogram histogram).1
    if index = 0 then genPredGo comm (index + 1) rest (d1 ++ selVals) d2
    else if index = 1 then genPredGo comm (index + 1) rest d1 (d2 ++ selVals)
    else .error .processExit

/-- The function generatePredicateValues of qep_processor.py.  An empty
second dimension becomes None so the caller takes the 1-D path. -/
def generatePredicateValues (comm : Comm) (attrs : List String) :
    Except PyAbort (List ℚ × Option (List ℚ)) :=
  match genPredGo comm 0 attrs [] [] with
  | .error e => .error e
  | .ok (d1, d2) => .ok (d1, if d2.length = 0 then none else some d2)

/-- Inner comparison loop of the enumeration: walk the existing QEPs in
insertion order and return the 0-based position of the first one judged
equivalent (the Python for/break with bAddQEPFlag). -/
def findEquivIdx (qep : Py) : List Py → ℕ → Option ℕ
  | [], _ => none
  | e :: rest, i => if isEquivalent e qep then some i else findEquivIdx qep rest (i + 1)

/-- Instantiation of the template at one selectivity value: the Python
query.replace(PREDICATE_TOKEN, "<= " + str(value), 1). -/
def instantiate1 (query : String) (v : ℚ) : String :=
  replaceFirst query PREDICATE_TOKEN ("<= " ++ toString v)

/-- Loop of retrieveQEPs_OneDimension of qep_processor.py.  Each iteration
instantiates the pristine template (the Python code saves and restores the
template around the substitution), sends the query, and either seeds the
plan set (first point), reuses the first equivalent plan, or appends a new
plan.  The returned log lists the queries sent to the engine through getQEP.
A None reply makes the subscription getQEP(query)[0][0] raise a TypeError. -/
def retrieveQEPs1DGo (comm : Comm) (query : String) :
    ℕ → List ℚ → List ℕ → List Py → List String →
    Except PyAbort (List ℕ × List Py) × List String
  | _, [], planIndexes, lstAllQEPs, log => (.ok (planIndexes, lstAllQEPs), log)
  | index, v :: rest, planIndexes, lstAllQEPs, log =>
    let q1 := instantiate1 query v
    match comm.getQEP q1 with
    | none => (.error .noneNotSubscriptable, log ++ [q1])
    | some qep =>
      if index = 0 then
        retrieveQEPs1DGo comm query (index + 1) rest (planIndexes ++ [1])
          (lstAllQEPs ++ [qep]) (log ++ [q1])
      else
        match findEquivIdx qep lstAllQEPs 0 with
        | some i =>
          retrieveQEPs1DGo comm query (index + 1) rest (planIndexes ++ [i + 1])
            lstAllQEPs (log ++ [q1])
        | none =>
          retrieveQEPs1DGo comm query (index + 1) rest
            (planIndexes ++ [lstAllQEPs.length + 1]) (lstAllQEPs ++ [qep]) (log ++ [q1])

/-- The function retrieveQEPs_OneDimension of qep_processor.py, paired with
the log of engine round-trips. -/
def retrieveQEPs_OneDimension (comm : Comm) (query : String) (vals : List ℚ) :
    Except PyAbort (List ℕ × List Py) × List String :=
  retrieveQEPs1DGo comm query 0 vals [] [] []

/-- Instantiation of a two-token template at a pair of selectivity values:
two successive first-occurrence replacements. -/
def instantiate2 (query : String) (v1 v2 : ℚ) : String :=
  replaceFirst (replaceFirst query PREDICATE_TOKEN ("<= " ++ toString v1))
    PREDICATE_TOKEN ("<= " ++ toString v2)

/-- Inner loop of retrieveQEPs_TwoDimensions of qep_processor.py, iterating
the second dimension for a fixed first-dimension value. -/
def retrieveQEPs2DInner (comm : Comm) (query : String) (v1 : ℚ) (index : ℕ) :
    ℕ → List ℚ → List ℕ → List Py → List String →
    Except PyAbort (List ℕ × List Py) × List String
  | _, [], planIndexes, lstAllQEPs, log => (.ok (planIndexes, lstAllQEPs), log)
  | index2, v2 :: rest2, planIndexes, lstAllQEPs, log =>
    let q2 := instantiate2 query v1 v2
    match comm.getQEP q2 with
    | none => (.error .noneNotSubscriptable, log ++ [q2])
    | some qep =>
      if index = 0 ∧ index2 = 0 then
        retrieveQEPs2DInner comm query v1 index (index2 + 1) rest2 (planIndexes ++ [1])
          (lstAllQEPs ++ [qep]) (log ++ [q2])
      else
        match findEquivIdx qep lstAllQEPs 0 with
        | some i =>
          retrieveQEPs2DInner comm query v1 index (index2 + 1) rest2 (planIndexes ++ [i + 1])
            lstAllQEPs (log ++ [q2])
        | none =>
          retrieveQEPs2DInner comm query v1 index (index2 + 1) rest2
            (planIndexes ++ [lstAllQEPs.length + 1]) (lstAllQEPs ++ [qep]) (log ++ [q2])

/-- Outer loop of retrieveQEPs_TwoDimensions of qep_processor.py, iterating
the first dimension. -/
def retrieveQEPs2DOuter (comm : Comm) (query : String) (vals2 : List ℚ) :
    ℕ → List ℚ → List ℕ → List Py → List String →
    Except PyAbort (List ℕ × List Py) × List String
  | _, [], planIndexes, lstAllQEPs, log => (.ok (planIndexes, lstAllQEPs), log)
  | index, v1 :: rest1, planIndexes, lstAllQEPs, log =>
    match retrieveQEPs2DInner comm query v1 index 0 vals2 planIndexes lstAllQEPs log with
    | (.ok st, log2) => retrieveQEPs2DOuter comm query vals2 (index + 1) rest1 st.1 st.2 log2
    | (.error e, log2) => (.error e, log2)

/-- The function retrieveQEPs_TwoDimensions of qep_processor.py, paired with
the log of engine round-trips. -/
def retrieveQEPs_TwoDimensions (comm : Comm) (query : String) (vals1 vals2 : List ℚ) :
    Except PyAbort (List ℕ × List Py) × List String :=
  retrieveQEPs2DOuter comm query vals2 0 vals1 [] [] []

/-- Result of processQuery of qep_processor.py: the RET_CONVERT_QUERY_ERR
return with no payload, or the RET_ALL_QEPS return with the distinct plans,
the predicate attributes, and the selectivity map. -/
inductive ProcessOutcome where
  | convertErr
  | allQEPs (lstAllQEPs : List Py) (attrs : List String) (selectivityMap : List ℕ)

/-- The function processQuery of qep_processor.py, over the parsed query
(attrs and clauses come from get_predicates_conditions.get_var_column).  The
result carries the list of queries sent to the engine through getQEP, so
theorems can speak about the engine round-trips issued. -/
def processQuery (comm : Comm) (query : String) (attrs : List String) (clauses : List Clause) :
    Except PyAbort ProcessOutcome × List String :=
  match convertToQueryTemplate query attrs clauses with
  | .convErr => (.ok .convertErr, [])
  | .convOk attrs2 template =>
    match generatePredicateValues comm attrs2 with
    | .error e => (.error e, [])
    | .ok (d1, none) =>
      match retrieveQEPs_OneDimension comm template d1 with
      | (.ok (planIndexes, qeps), log) => (.ok (.allQEPs qeps attrs2 planIndexes), log)
      | (.error e, log) => (.error e, log)
    | .ok (d1, some d2) =>
      match retrieveQEPs_TwoDimensions comm template d1 d2 with
      | (.ok (planIndexes, qeps), log) => (.ok (.allQEPs qeps attrs2 planIndexes), log)
      | (.error e, log) => (.error e, log)

/-- One deduplication step over an already seeded state: the point is
assigned the index of the first equivalent existing plan, else its plan is
appended and it is assigned the new index. -/
def qepLoopStep (st : List ℕ × List Py) (qep : Py) : List ℕ × List Py :=
  match findEquivIdx qep st.2 0 with
  | some i => (st.1 ++ [i + 1], st.2)
  | none => (st.1 ++ [st.2.length + 1], st.2 ++ [qep])

/-- The deduplication loop shared by both enumeration dimensions, expressed
over the list of plans the engine returned, in sampling order: the first
plan seeds the state with index 1, the rest go through qepLoopStep. -/
def qepLoop : List Py → List ℕ × List Py
  | [] => ([], [])
  | q :: rest => rest.foldl qepLoopStep ([1], [q])


theorem zip_self_midpoint (l : List ℚ) :
    (l.zip l).map (fun p => (p.2 - p.1) * (1/2) + p.1) = l := by
  induction l with
  | nil => rfl
  | cons a r ih =>
    simp only [List.zip_cons_cons, List.map_cons, ih, List.cons.injEq, and_true]
    ring

/-- Claim C2: the Selectivity Sampler is claimed to emit, at stride
floor(100/RESOLUTION)+1 through the histogram bound list, the midpoint
between each retained bound and its successor.  The code slices the same
bound list twice, so lower and upper bound coincide and every emitted value
is the retained bound itself, never a midpoint: selValues equals the stride
slice of the bounds, and on the 101-entry bound list 0,1,...,100 the ten
values are 0,11,22,...,99 where the claim requires midpoints. -/
theorem C2_selValues_are_bounds_not_midpoints :
    (∀ bounds : List ℚ, (readHistogram bounds).1 = sliceEvery bounds 11) ∧
      (readHistogram ((List.range 101).map (fun n => (n : ℚ)))).1 =
        [0, 11, 22, 33, 44, 55, 66, 77, 88, 99] := by
  have hgen : ∀ bounds : List ℚ, (readHistogram bounds).1 = sliceEvery bounds 11 := by
    intro bounds
    show (let step := 100 / RESOLUTION + 1
      (((sliceEvery bounds step).zip (sliceEvery bounds step)).map
        (fun p => (p.2 - p.1) * (1/2) + p.1))) = _
    simp only [RESOLUTION]
    exact zip_self_midpoint _
  refine ⟨hgen, ?_⟩
  rw [hgen]
  with_unfolding_all decide


/-- Modelled from the spec: position of the first DistinctPlanSet member
judged equivalent to the given plan, walking the members in insertion order
(the comparison rule of claim C4). -/
def firstEquivalentIdx (qep : Py) : List Py → Option ℕ
  | [] => none
  | e :: rest =>
    if isEquivalent e qep then some 0 else (firstEquivalentIdx qep rest).map (· + 1)

/-- Modelled from the spec: the assignment rule as claim C4 words it.  The
first sampled point seeds the DistinctPlanSet with index 1; every later
point gets the index of the first member judged equivalent, in insertion
order, and only when no member matches is its plan appended and the new
index assigned. -/
def specAssignStep (st : List ℕ × List Py) (qep : Py) : List ℕ × List Py :=
  if st.2.isEmpty then (st.1 ++ [1], st.2 ++ [qep])
  else
    match firstEquivalentIdx qep st.2 with
    | some j => (st.1 ++ [j + 1], st.2)
    | none => (st.1 ++ [st.2.length + 1], st.2 ++ [qep])

/-- Modelled from the spec: the whole enumeration assignment of claim C4 as
a fold of the spec-worded step over the sampled plans. -/
def specEnumerate (plans : List Py) : List ℕ × List Py :=
  plans.foldl specAssignStep ([], [])

theorem findEquivIdx_eq_firstEquivalentIdx (qep : Py) :
    ∀ (l : List Py) (i : ℕ),
      findEquivIdx qep l i = (firstEquivalentIdx qep l).map (· + i) := by
  intro l
  induction l with
  | nil => intro i; rfl
  | cons e rest ih =>
    intro i
    by_cases h : isEquivalent e qep
    · simp [findEquivIdx, firstEquivalentIdx, h]
    · simp only [findEquivIdx, firstEquivalentIdx, h, if_false, Bool.false_eq_true]
      rw [ih (i + 1)]
      cases firstEquivalentIdx qep rest with
      | none => rfl
      | some j =>
        simp only [Option.map_some']
        congr 1
        omega

theorem findEquivIdx_some_lt (qep : Py) :
    ∀ (l : List Py) (i j : ℕ), findEquivIdx qep l i = some j → i ≤ j ∧ j < i + l.length := by
  intro l
  induction l with
  | nil => intro i j h; simp [findEquivIdx] at h
  | cons e rest ih =>
    intro i j h
    simp only [findEquivIdx] at h
    by_cases he : isEquivalent e qep
    · rw [if_pos he] at h
      have : i = j := by simpa using h
      subst this
      constructor
      · omega
      · simp only [List.length_cons]; omega
    · rw [if_neg he] at h
      have := ih (i + 1) j h
      constructor
      · omega
      · simp only [List.length_cons]; omega

theorem qepLoopStep_eq_specAssignStep (st : List ℕ × List Py) (qep : Py) :
    qepLoopStep st qep = specAssignStep st qep := by
  unfold qepLoopStep specAssignStep
  rw [findEquivIdx_eq_firstEquivalentIdx qep st.2 0]
  cases hq : st.2 with
  | nil => simp [firstEquivalentIdx]
  | cons q rest =>
    simp only [List.isEmpty_cons, if_false, Bool.false_eq_true]
    cases h : firstEquivalentIdx qep (q :: rest) with
    | none => simp
    | some j => simp

theorem qepLoop_eq_foldl (plans : List Py) :
    qepLoop plans = plans.foldl qepLoopStep ([], []) := by
  cases plans with
  | nil => rfl
  | cons q rest =>
    show rest.foldl qepLoopStep ([1], [q]) = _
    simp only [List.foldl_cons]
    rfl

theorem qepLoop_eq_specEnumerate (plans : List Py) : qepLoop plans = specEnumerate plans := by
  rw [qepLoop_eq_foldl]
  unfold specEnumerate
  congr 1
  funext st qep
  exact qepLoopStep_eq_specAssignStep st qep

/-- Plans the engine returns for the 1-D grid, one per sampled value, in
sampling order (total under the assumption that every round-trip
succeeds). -/
def obtained1D (comm : Comm) (query : String) (vals : List ℚ) : List Py :=
  vals.map (fun v => (comm.getQEP (instantiate1 query v)).getD (Py.dict []))

/-- Plans the engine returns for the 2-D grid in row-major order. -/
def obtained2D (comm : Comm) (query : String) (vals1 vals2 : List ℚ) : List Py :=
  (vals1.map (fun v1 => vals2.map
    (fun v2 => (comm.getQEP (instantiate2 query v1 v2)).getD (Py.dict [])))).flatten

theorem retrieve1DGo_ok (comm : Comm) (query : String) :
    ∀ (vals : List ℚ) (index : ℕ) (pi : List ℕ) (qs : List Py) (log : List String),
      1 ≤ index →
      (∀ v ∈ vals, (comm.getQEP (instantiate1 query v)).isSome) →
      retrieveQEPs1DGo comm query index vals pi qs log =
        (.ok ((obtained1D comm query vals).foldl qepLoopStep (pi, qs)),
          log ++ vals.map (fun v => instantiate1 query v)) := by
  intro vals
  induction vals with
  | nil => intro index pi qs log hidx hok; simp [retrieveQEPs1DGo, obtained1D]
  | cons v rest ih =>
    intro index pi qs log hidx hok
    have hv := hok v (List.mem_cons_self v rest)
    rcases hsome : comm.getQEP (instantiate1 query v) with _ | qep
    · rw [hsome] at hv; simp at hv
    · simp only [retrieveQEPs1DGo, hsome]
      have hne : ¬ index = 0 := by omega
      simp only [hne, if_false, Bool.false_eq_true]
      have hrest : ∀ w ∈ rest, (comm.getQEP (instantiate1 query w)).isSome := by
        intro w hw; exact hok w (List.mem_cons_of_mem v hw)
      simp only [obtained1D, List.map_cons, List.foldl_cons]
      cases hfind : findEquivIdx qep qs 0 with
      | some i =>
        simp only []
        rw [ih (index + 1) (pi ++ [i + 1]) qs (log ++ [instantiate1 query v]) (by omega) hrest]
        simp only [qepLoopStep, hfind, hsome, Option.getD_some, obtained1D, List.append_assoc,
          List.singleton_append]
      | none =>
        simp only []
        rw [ih (index + 1) (pi ++ [qs.length + 1]) (qs ++ [qep])
          (log ++ [instantiate1 query v]) (by omega) hrest]
        simp only [qepLoopStep, hfind, hsome, Option.getD_some, obtained1D, List.append_assoc,
          List.singleton_append]

theorem retrieve1D_eq_qepLoop (comm : Comm) (query : String) (vals : List ℚ)
    (hok : ∀ v ∈ vals, (comm.getQEP (instantiate1 query v)).isSome) :
    retrieveQEPs_OneDimension comm query vals =
      (.ok (qepLoop (obtained1D comm query vals)),
        vals.map (fun v => instantiate1 query v)) := by
  cases vals with
  | nil => rfl
  | cons v rest =>
    have hv := hok v (List.mem_cons_self v rest)
    rcases hsome : comm.getQEP (instantiate1 query v) with _ | qep
    · rw [hsome] at hv; simp at hv
    · show retrieveQEPs1DGo comm query 0 (v :: rest) [] [] [] = _
      simp only [retrieveQEPs1DGo, hsome, if_true]
      have hrest : ∀ w ∈ rest, (comm.getQEP (instantiate1 query w)).isSome := by
        intro w hw; exact hok w (List.mem_cons_of_mem v hw)
      rw [retrieve1DGo_ok comm query rest 1 ([] ++ [1]) ([] ++ [qep])
        ([] ++ [instantiate1 query v]) (by omega) hrest]
      simp only [obtained1D, List.map_cons, hsome, Option.getD_some, qepLoop,
        List.nil_append, List.singleton_append]


theorem retrieve2DInner_ok (comm : Comm) (query : String) (v1 : ℚ) :
    ∀ (row : List ℚ) (index index2 : ℕ) (pi : List ℕ) (qs : List Py) (log : List String),
      1 ≤ index + index2 →
      (∀ v2 ∈ row, (comm.getQEP (instantiate2 query v1 v2)).isSome) →
      retrieveQEPs2DInner comm query v1 index index2 row pi qs log =
        (.ok ((row.map (fun v2 => (comm.getQEP (instantiate2 query v1 v2)).getD
            (Py.dict []))).foldl qepLoopStep (pi, qs)),
          log ++ row.map (fun v2 => instantiate2 query v1 v2)) := by
  intro row
  induction row with
  | nil => intro index index2 pi qs log hidx hok; simp [retrieveQEPs2DInner]
  | cons v2 rest ih =>
    intro index index2 pi qs log hidx hok
    have hv := hok v2 (List.mem_cons_self v2 rest)
    rcases hsome : comm.getQEP (instantiate2 query v1 v2) with _ | qep
    · rw [hsome] at hv; simp at hv
    · simp only [retrieveQEPs2DInner, hsome]
      have hne : ¬ (index = 0 ∧ index2 = 0) := by omega
      simp only [if_neg hne]
      have hrest : ∀ w ∈ rest, (comm.getQEP (instantiate2 query v1 w)).isSome := by
        intro w hw; exact hok w (List.mem_cons_of_mem v2 hw)
      simp only [List.map_cons, List.foldl_cons]
      cases hfind : findEquivIdx qep qs 0 with
      | some i =>
        simp only []
        rw [ih index (index2 + 1) (pi ++ [i + 1]) qs (log ++ [instantiate2 query v1 v2])
          (by omega) hrest]
        simp only [qepLoopStep, hfind, hsome, Option.getD_some, List.append_assoc,
          List.singleton_append]
      | none =>
        simp only []
        rw [ih index (index2 + 1) (pi ++ [qs.length + 1]) (qs ++ [qep])
          (log ++ [instantiate2 query v1 v2]) (by omega) hrest]
        simp only [qepLoopStep, hfind, hsome, Option.getD_some, List.append_assoc,
          List.singleton_append]

theorem retrieve2DInner_first (comm : Comm) (query : String) (v1 : ℚ) (row : List ℚ)
    (log : List String)
    (hok : ∀ v2 ∈ row, (comm.getQEP (instantiate2 query v1 v2)).isSome) :
    retrieveQEPs2DInner comm query v1 0 0 row [] [] log =
      (.ok ((row.map (fun v2 => (comm.getQEP (instantiate2 query v1 v2)).getD
          (Py.dict []))).foldl qepLoopStep ([], [])),
        log ++ row.map (fun v2 => instantiate2 query v1 v2)) := by
  cases row with
  | nil => simp [retrieveQEPs2DInner]
  | cons v2 rest =>
    have hv := hok v2 (List.mem_cons_self v2 rest)
    rcases hsome : comm.getQEP (instantiate2 query v1 v2) with _ | qep
    · rw [hsome] at hv; simp at hv
    · simp only [retrieveQEPs2DInner, hsome]
      have hrest : ∀ w ∈ rest, (comm.getQEP (instantiate2 query v1 w)).isSome := by
        intro w hw; exact hok w (List.mem_cons_of_mem v2 hw)
      rw [retrieve2DInner_ok comm query v1 rest 0 1 ([] ++ [1]) ([] ++ [qep])
        (log ++ [instantiate2 query v1 v2]) (by omega) hrest]
      simp only [and_self, if_true, List.map_cons, List.foldl_cons, hsome, Option.getD_some,
        qepLoopStep, findEquivIdx, List.append_assoc, List.singleton_append, List.nil_append,
        List.length_nil, Nat.zero_add]

theorem retrieve2DOuter_ok (comm : Comm) (query : String) (vals2 : List ℚ) :
    ∀ (rows : List ℚ) (index : ℕ) (pi : List ℕ) (qs : List Py) (log : List String),
      1 ≤ index →
      (∀ v1 ∈ rows, ∀ v2 ∈ vals2, (comm.getQEP (instantiate2 query v1 v2)).isSome) →
      retrieveQEPs2DOuter comm query vals2 index rows pi qs log =
        (.ok (((rows.map (fun v1 => vals2.map (fun v2 =>
            (comm.getQEP (instantiate2 query v1 v2)).getD (Py.dict [])))).flatten).foldl
            qepLoopStep (pi, qs)),
          log ++ (rows.map (fun v1 => vals2.map
            (fun v2 => instantiate2 query v1 v2))).flatten) := by
  intro rows
  induction rows with
  | nil => intro index pi qs log hidx hall; simp [retrieveQEPs2DOuter]
  | cons v1 rest1 ih =>
    intro index pi qs log hidx hall
    have hrow : ∀ v2 ∈ vals2, (comm.getQEP (instantiate2 query v1 v2)).isSome :=
      hall v1 (List.mem_cons_self v1 rest1)
    simp only [retrieveQEPs2DOuter]
    rw [retrieve2DInner_ok comm query v1 vals2 index 0 pi qs log (by omega) hrow]
    dsimp only []
    rw [ih (index + 1) _ _ _ (by omega)
      (fun w hw => hall w (List.mem_cons_of_mem v1 hw))]
    simp only [List.map_cons, List.flatten_cons, List.foldl_append, List.append_assoc,
      Prod.mk.eta]

theorem retrieve2D_eq_qepLoop (comm : Comm) (query : String) (vals1 vals2 : List ℚ)
    (hok : ∀ v1 ∈ vals1, ∀ v2 ∈ vals2, (comm.getQEP (instantiate2 query v1 v2)).isSome) :
    retrieveQEPs_TwoDimensions comm query vals1 vals2 =
      (.ok (qepLoop (obtained2D comm query vals1 vals2)),
        (vals1.map (fun v1 => vals2.map (fun v2 => instantiate2 query v1 v2))).flatten) := by
  cases vals1 with
  | nil => rfl
  | cons v1 rest1 =>
    show retrieveQEPs2DOuter comm query vals2 0 (v1 :: rest1) [] [] [] = _
    simp only [retrieveQEPs2DOuter]
    rw [retrieve2DInner_first comm query v1 vals2 []
      (hok v1 (List.mem_cons_self v1 rest1))]
    dsimp only []
    rw [retrieve2DOuter_ok comm query vals2 rest1 1 _ _ _ (by omega)
      (fun w hw => hok w (List.mem_cons_of_mem v1 hw))]
    rw [qepLoop_eq_foldl]
    simp only [obtained2D, List.map_cons, List.flatten_cons, List.foldl_append,
      List.nil_append, Prod.mk.eta]


theorem qepLoopStep_fst (st : List ℕ × List Py) (q : Py) :
    ∃ k, (qepLoopStep st q).1 = st.1 ++ [k] := by
  unfold qepLoopStep
  cases findEquivIdx q st.2 0 with
  | some i => exact ⟨i + 1, rfl⟩
  | none => exact ⟨st.2.length + 1, rfl⟩

theorem foldl_qepLoopStep_len :
    ∀ (l : List Py) (st : List ℕ × List Py),
      (l.foldl qepLoopStep st).1.length = st.1.length + l.length := by
  intro l
  induction l with
  | nil => intro st; simp
  | cons q rest ih =>
    intro st
    rw [List.foldl_cons, ih]
    obtain ⟨k, hk⟩ := qepLoopStep_fst st q
    rw [hk]
    simp
    omega

theorem foldl_qepLoopStep_head :
    ∀ (l : List Py) (st : List ℕ × List Py), st.1 ≠ [] →
      (l.foldl qepLoopStep st).1.head? = st.1.head? := by
  intro l
  induction l with
  | nil => intro st h; rfl
  | cons q rest ih =>
    intro st h
    rw [List.foldl_cons, ih]
    · obtain ⟨k, hk⟩ := qepLoopStep_fst st q
      rw [hk]
      cases hs : st.1 with
      | nil => exact absurd hs h
      | cons a t => simp
    · obtain ⟨k, hk⟩ := qepLoopStep_fst st q
      rw [hk]
      simp

/-- Invariant of the enumeration state: every assigned plan number is
between 1 and the current size of the distinct plan set, and every number
in that range has been assigned to some point. -/
def StInv (st : List ℕ × List Py) : Prop :=
  (∀ k ∈ st.1, 1 ≤ k ∧ k ≤ st.2.length) ∧ (∀ j, 1 ≤ j → j ≤ st.2.length → j ∈ st.1)

theorem qepLoopStep_inv (st : List ℕ × List Py) (q : Py) (h : StInv st) :
    StInv (qepLoopStep st q) := by
  obtain ⟨h1, h2⟩ := h
  unfold qepLoopStep
  cases hfind : findEquivIdx q st.2 0 with
  | some i =>
    dsimp only []
    have hb := findEquivIdx_some_lt q st.2 0 i hfind
    constructor
    · intro k hk
      rcases List.mem_append.mp hk with hk | hk
      · exact h1 k hk
      · simp at hk
        subst hk
        refine ⟨by omega, ?_⟩
        simp only []
        omega
    · intro j hj1 hj2
      exact List.mem_append.mpr (Or.inl (h2 j hj1 hj2))
  | none =>
    dsimp only []
    constructor
    · intro k hk
      rcases List.mem_append.mp hk with hk | hk
      · have := h1 k hk
        simp only [List.length_append, List.length_cons, List.length_nil]
        omega
      · simp at hk
        subst hk
        simp only [List.length_append, List.length_cons, List.length_nil]
        omega
    · intro j hj1 hj2
      simp at hj2
      rcases Nat.lt_or_ge j (st.2.length + 1) with hj | hj
      · exact List.mem_append.mpr (Or.inl (h2 j hj1 (by omega)))
      · have : j = st.2.length + 1 := by omega
        subst this
        simp

theorem foldl_qepLoopStep_inv :
    ∀ (l : List Py) (st : List ℕ × List Py), StInv st → StInv (l.foldl qepLoopStep st) := by
  intro l
  induction l with
  | nil => intro st h; exact h
  | cons q rest ih => intro st h; exact ih _ (qepLoopStep_inv st q h)

theorem qepLoop_invariants (plans : List Py) :
    (qepLoop plans).1.length = plans.length ∧
      (plans ≠ [] → (qepLoop plans).1.head? = some 1) ∧
      (∀ k ∈ (qepLoop plans).1, 1 ≤ k ∧ k ≤ (qepLoop plans).2.length) ∧
      (∀ j, 1 ≤ j → j ≤ (qepLoop plans).2.length → j ∈ (qepLoop plans).1) := by
  cases plans with
  | nil =>
    refine ⟨rfl, fun h => absurd rfl h, ?_, ?_⟩
    · intro k hk; cases hk
    · intro j hj1 hj2
      simp only [qepLoop, List.length_nil] at hj2
      omega
  | cons q rest =>
    have hseed : StInv ([1], [q]) := by
      constructor
      · intro k hk
        simp at hk
        subst hk
        simp
      · intro j hj1 hj2
        simp at hj2
        have : j = 1 := by omega
        subst this
        simp
    have hinv := foldl_qepLoopStep_inv rest ([1], [q]) hseed
    have hlen := foldl_qepLoopStep_len rest ([1], [q])
    have hhead := foldl_qepLoopStep_head rest ([1], [q]) (by simp)
    refine ⟨?_, ?_, hinv.1, hinv.2⟩
    · show (rest.foldl qepLoopStep ([1], [q])).1.length = _
      rw [hlen]
      norm_num
      omega
    · intro _
      show (rest.foldl qepLoopStep ([1], [q])).1.head? = some 1
      rw [hhead]
      rfl


theorem obtained2D_length (comm : Comm) (query : String) (vals1 vals2 : List ℚ) :
    (obtained2D comm query vals1 vals2).length = vals1.length * vals2.length := by
  induction vals1 with
  | nil => simp [obtained2D]
  | cons v1 rest1 ih =>
    simp only [obtained2D, List.map_cons, List.flatten_cons, List.length_append,
      List.length_map, List.length_cons] at ih ⊢
    rw [ih]
    ring

/-- Concrete database stub used by the witnesses: every query yields the
same (empty) plan and the statistics calls return fixed values. -/
def comm0 : Comm :=
  ⟨fun _ => "t", fun _ _ => [], fun _ => 0, fun _ => some (Py.dict [])⟩

/-- Claim C4 (confirmed): during enumeration in both dimensions, the first
sampled point seeds the DistinctPlanSet and is assigned index 1, and every
later point is assigned the index of the first member judged equivalent in
insertion order, its plan being appended as a new member with the new index
only when no member matches.  The code loops equal the fold of the
spec-worded assignment step, and the very first assigned index is 1. -/
theorem C4_first_match_assignment (comm : Comm) (query : String)
    (vals vals1 vals2 : List ℚ)
    (h1 : ∀ v ∈ vals, (comm.getQEP (instantiate1 query v)).isSome)
    (h2 : ∀ v1 ∈ vals1, ∀ v2 ∈ vals2, (comm.getQEP (instantiate2 query v1 v2)).isSome) :
    (∀ plans : List Py, qepLoop plans = specEnumerate plans ∧
        (plans ≠ [] → (qepLoop plans).1.head? = some 1)) ∧
      (retrieveQEPs_OneDimension comm query vals).1 =
        .ok (specEnumerate (obtained1D comm query vals)) ∧
      (retrieveQEPs_TwoDimensions comm query vals1 vals2).1 =
        .ok (specEnumerate (obtained2D comm query vals1 vals2)) := by
  refine ⟨fun plans => ⟨qepLoop_eq_specEnumerate plans,
    fun h => (qepLoop_invariants plans).2.1 h⟩, ?_, ?_⟩
  · rw [retrieve1D_eq_qepLoop comm query vals h1]
    dsimp only []
    rw [qepLoop_eq_specEnumerate]
  · rw [retrieve2D_eq_qepLoop comm query vals1 vals2 h2]
    dsimp only []
    rw [qepLoop_eq_specEnumerate]

theorem C4_first_match_assignment_witness :
    (retrieveQEPs_OneDimension comm0 "q" [1, 2]).1 =
      .ok (specEnumerate (obtained1D comm0 "q" [1, 2])) ∧
    (retrieveQEPs_TwoDimensions comm0 "q" [1] [2]).1 =
      .ok (specEnumerate (obtained2D comm0 "q" [1] [2])) := by
  have h := C4_first_match_assignment comm0 "q" [1, 2] [1] [2]
    (by intro v hv; rfl) (by intro a ha b hb; rfl)
  exact ⟨h.2.1, h.2.2⟩

/-- Claim C10 (confirmed): a completed enumeration returns one plan index
per sampled grid point, the first entry is 1, every entry lies between 1
and the size of the returned DistinctPlanSet, and every index in that range
occurs in the grid. -/
theorem C10_grid_entries_contiguous (comm : Comm) (query : String)
    (vals vals1 vals2 : List ℚ)
    (h1 : ∀ v ∈ vals, (comm.getQEP (instantiate1 query v)).isSome)
    (h2 : ∀ v1 ∈ vals1, ∀ v2 ∈ vals2, (comm.getQEP (instantiate2 query v1 v2)).isSome) :
    (∀ pi qs, (retrieveQEPs_OneDimension comm query vals).1 = .ok (pi, qs) →
        pi.length = vals.length ∧ (vals ≠ [] → pi.head? = some 1) ∧
        (∀ k ∈ pi, 1 ≤ k ∧ k ≤ qs.length) ∧ (∀ j, 1 ≤ j → j ≤ qs.length → j ∈ pi)) ∧
      (∀ pi qs, (retrieveQEPs_TwoDimensions comm query vals1 vals2).1 = .ok (pi, qs) →
        pi.length = vals1.length * vals2.length ∧
        (vals1 ≠ [] → vals2 ≠ [] → pi.head? = some 1) ∧
        (∀ k ∈ pi, 1 ≤ k ∧ k ≤ qs.length) ∧ (∀ j, 1 ≤ j → j ≤ qs.length → j ∈ pi)) := by
  constructor
  · intro pi qs h
    rw [retrieve1D_eq_qepLoop comm query vals h1] at h
    dsimp only [] at h
    rw [Except.ok.injEq] at h
    have hinv := qepLoop_invariants (obtained1D comm query vals)
    rw [h] at hinv
    dsimp only [] at hinv
    refine ⟨?_, ?_, hinv.2.2.1, hinv.2.2.2⟩
    · rw [hinv.1]
      simp [obtained1D]
    · intro hne
      apply hinv.2.1
      simp [obtained1D, hne]
  · intro pi qs h
    rw [retrieve2D_eq_qepLoop comm query vals1 vals2 h2] at h
    dsimp only [] at h
    rw [Except.ok.injEq] at h
    have hinv := qepLoop_invariants (obtained2D comm query vals1 vals2)
    rw [h] at hinv
    dsimp only [] at hinv
    refine ⟨?_, ?_, hinv.2.2.1, hinv.2.2.2⟩
    · rw [hinv.1]
      exact obtained2D_length comm query vals1 vals2
    · intro hne1 hne2
      apply hinv.2.1
      have hlen := obtained2D_length comm query vals1 vals2
      intro hcon
      rw [hcon] at hlen
      simp at hlen
      rcases hlen with hl | hl
      · exact hne1 hl
      · exact hne2 hl

theorem C10_grid_entries_contiguous_witness :
    (([1, 1] : List ℕ).length = ([1, 2] : List ℚ).length ∧
      (([1, 2] : List ℚ) ≠ [] → ([1, 1] : List ℕ).head? = some 1) ∧
      (∀ k ∈ ([1, 1] : List ℕ), 1 ≤ k ∧ k ≤ ([Py.dict []] : List Py).length) ∧
      (∀ j, 1 ≤ j → j ≤ ([Py.dict []] : List Py).length → j ∈ ([1, 1] : List ℕ))) := by
  exact (C10_grid_entries_contiguous comm0 "q" [1, 2] [1] [2]
    (by intro v hv; rfl) (by intro a ha b hb; rfl)).1 [1, 1] [Py.dict []]
    (by with_unfolding_all rfl)


/-- Claim C7 (confirmed): when zero predicates survive the numeric
filtering, template conversion returns the error result rather than any
template, and processQuery returns the conversion-failure discriminator
with an empty engine-call log, so no plan enumeration is performed and the
caller can fall back to requesting only the actual plan. -/
theorem C7_zero_predicates_convert_error (comm : Comm) (query : String)
    (attrs : List String) (clauses : List Clause)
    (h : filteredAttrs attrs clauses = []) :
    convertToQueryTemplate query attrs clauses = .convErr ∧
      processQuery comm query attrs clauses = (.ok .convertErr, []) := by
  simp only [filteredAttrs] at h
  have hc : convertToQueryTemplate query attrs clauses = .convErr := by
    simp only [convertToQueryTemplate]
    rw [h]
    simp
  refine ⟨hc, ?_⟩
  unfold processQuery
  rw [hc]

theorem C7_zero_predicates_convert_error_witness :
    convertToQueryTemplate "SELECT * FROM lineitem WHERE l_shipdate < 1995-01-01"
        ["l_shipdate"] [⟨"l_shipdate < 1995-01-01", "l_shipdate", false⟩] = .convErr ∧
      processQuery comm0 "SELECT * FROM lineitem WHERE l_shipdate < 1995-01-01"
        ["l_shipdate"] [⟨"l_shipdate < 1995-01-01", "l_shipdate", false⟩] =
        (.ok .convertErr, []) := by
  exact C7_zero_predicates_convert_error comm0 _ _ _ (by with_unfolding_all rfl)

/-- Claim C6 counterexample: with three predicate attributes the code does
not raise any recoverable TooManyPredicatesError; generatePredicateValues
prints an error and calls quit(), terminating the interpreter (the
processExit outcome), so the request is not aborted cleanly as the claim
requires. -/
theorem C6_three_predicates_process_exit :
    generatePredicateValues comm0 ["a", "b", "c"] = .error .processExit ∧
      processQuery comm0 "SELECT x FROM t WHERE a < 1 AND b < 2 AND c < 3"
        ["a", "b", "c"]
        [⟨"a < 1", "a", true⟩, ⟨"b < 2", "b", true⟩, ⟨"c < 3", "c", true⟩] =
        (.error .processExit, []) := by
  constructor
  · with_unfolding_all rfl
  · with_unfolding_all rfl

/-- Claim C6 as amended: when template conversion yields more than two
predicate attributes, generatePredicateValues terminates the process (the
quit() call, modelled as the processExit outcome) instead of raising a
recoverable error, and it does so before any plan round-trip is issued:
processQuery ends with the processExit outcome and an empty engine-call
log. -/
theorem C6_quit_before_plan_roundtrips (comm : Comm) (query : String)
    (attrs attrs2 : List String) (clauses : List Clause) (template : String)
    (hconv : convertToQueryTemplate query attrs clauses = .convOk attrs2 template)
    (hlen : 2 < attrs2.length) :
    generatePredicateValues comm attrs2 = .error .processExit ∧
      processQuery comm query attrs clauses = (.error .processExit, []) := by
  have hgen : generatePredicateValues comm attrs2 = .error .processExit := by
    match attrs2, hlen with
    | a :: b :: c :: rest, _ =>
      simp [generatePredicateValues, genPredGo]
  refine ⟨hgen, ?_⟩
  unfold processQuery
  rw [hconv]
  dsimp only []
  rw [hgen]

theorem C6_quit_before_plan_roundtrips_witness :
    generatePredicateValues comm0 ["a", "b", "c"] = .error .processExit ∧
      processQuery comm0 "q" ["a", "b", "c"]
        [⟨"a < 1", "a", true⟩, ⟨"b < 2", "b", true⟩] = (.error .processExit, []) := by
  exact C6_quit_before_plan_roundtrips comm0 "q" ["a", "b", "c"] ["a", "b", "c"]
    [⟨"a < 1", "a", true⟩, ⟨"b < 2", "b", true⟩] _ (by with_unfolding_all rfl) (by decide)


theorem retrieve1DGo_fail (comm : Comm) (query : String) :
    ∀ (pre : List ℚ) (v : ℚ) (post : List ℚ) (index : ℕ) (pi : List ℕ) (qs : List Py)
      (log : List String),
      (∀ w ∈ pre, (comm.getQEP (instantiate1 query w)).isSome) →
      comm.getQEP (instantiate1 query v) = none →
      retrieveQEPs1DGo comm query index (pre ++ v :: post) pi qs log =
        (.error .noneNotSubscriptable,
          log ++ (pre ++ [v]).map (fun w => instantiate1 query w)) := by
  intro pre
  induction pre with
  | nil =>
    intro v post index pi qs log hpre hv
    simp only [List.nil_append, retrieveQEPs1DGo, hv, List.map_cons, List.map_nil]
  | cons w rest ih =>
    intro v post index pi qs log hpre hv
    have hw := hpre w (List.mem_cons_self w rest)
    rcases hsome : comm.getQEP (instantiate1 query w) with _ | qep
    · rw [hsome] at hw; simp at hw
    · simp only [List.cons_append, retrieveQEPs1DGo, hsome, List.append_eq]
      have hrest : ∀ u ∈ rest, (comm.getQEP (instantiate1 query u)).isSome := by
        intro u hu; exact hpre u (List.mem_cons_of_mem w hu)
      by_cases hidx : index = 0
      · subst hidx
        rw [if_pos rfl]
        rw [ih v post (0 + 1) (pi ++ [1]) (qs ++ [qep]) (log ++ [instantiate1 query w]) hrest hv]
        simp
      · simp only [hidx, if_false, Bool.false_eq_true]
        cases hfind : findEquivIdx qep qs 0 with
        | some i =>
          dsimp only []
          rw [ih v post (index + 1) (pi ++ [i + 1]) qs (log ++ [instantiate1 query w])
            hrest hv]
          simp
        | none =>
          dsimp only []
          rw [ih v post (index + 1) (pi ++ [qs.length + 1]) (qs ++ [qep])
            (log ++ [instantiate1 query w]) hrest hv]
          simp

/-- Claim C8 as amended: an engine round-trip failure (getQEP swallows the
database error and returns None, which the enumeration then subscripts)
aborts the 1-D enumeration at the failing point: the result is the
context-free None-subscription type error, the engine-call log stops at the
failing query, and the partial DistinctPlanSet gathered so far is discarded
(the error return carries no plans). -/
theorem C8_engine_failure_aborts (comm : Comm) (query : String) (pre : List ℚ) (v : ℚ)
    (post : List ℚ)
    (hpre : ∀ w ∈ pre, (comm.getQEP (instantiate1 query w)).isSome)
    (hv : comm.getQEP (instantiate1 query v) = none) :
    retrieveQEPs_OneDimension comm query (pre ++ v :: post) =
      (.error .noneNotSubscriptable,
        (pre ++ [v]).map (fun w => instantiate1 query w)) := by
  unfold retrieveQEPs_OneDimension
  rw [retrieve1DGo_fail comm query pre v post 0 [] [] [] hpre hv]
  simp

/-- Database stub whose engine rejects every query. -/
def commFailA : Comm := ⟨fun _ => "t", fun _ _ => [], fun _ => 0, fun _ => none⟩

/-- Database stub whose engine accepts exactly the first sampled query of
the second scenario below and rejects everything else. -/
def commFailB : Comm :=
  ⟨fun _ => "t", fun _ _ => [], fun _ => 0,
    fun q => if q = instantiate1 "SELECT b FROM t WHERE bbb :varies" 5
      then some (Py.dict []) else none⟩

theorem C8_engine_failure_aborts_witness :
    retrieveQEPs_OneDimension commFailA "SELECT a FROM t WHERE aaa :varies" ([] ++ 1 :: [2]) =
      (.error .noneNotSubscriptable,
        (([] : List ℚ) ++ [1]).map
          (fun w => instantiate1 "SELECT a FROM t WHERE aaa :varies" w)) := by
  exact C8_engine_failure_aborts commFailA _ [] 1 [2] (by intro w hw; cases hw) rfl

/-- Claim C8 counterexample: two enumerations that fail at different grid
points of different query texts surface the very same error value, which
carries no payload at all, so the failure does not reach the caller with
enough context to identify the grid point or the query text; the partial
plan set is discarded in both cases. -/
theorem C8_error_has_no_context :
    (retrieveQEPs_OneDimension commFailA "SELECT a FROM t WHERE aaa :varies" [1, 2]).1 =
        .error .noneNotSubscriptable ∧
      (retrieveQEPs_OneDimension commFailB "SELECT b FROM t WHERE bbb :varies" [5, 6, 7]).1 =
        .error .noneNotSubscriptable ∧
      (retrieveQEPs_OneDimension commFailA "SELECT a FROM t WHERE aaa :varies" [1, 2]).1 =
        (retrieveQEPs_OneDimension commFailB "SELECT b FROM t WHERE bbb :varies" [5, 6, 7]).1 := by
  refine ⟨?_, ?_, ?_⟩
  · with_unfolding_all rfl
  · with_unfolding_all rfl
  · with_unfolding_all rfl



theorem rndHalfEven_int (z : ℤ) : rndHalfEven (z : ℚ) = z := by
  unfold rndHalfEven
  norm_num

theorem round2_div100 (z : ℤ) : round2 ((z : ℚ) / 100) = (z : ℚ) / 100 := by
  unfold round2
  rw [div_mul_cancel₀ _ (by norm_num : (100 : ℚ) ≠ 0), rndHalfEven_int]

theorem round2_zero : round2 0 = 0 := by
  have h := round2_div100 0
  simpa using h

theorem Cost_div100 (z : ℤ) : Cost ((z : ℚ) / 100) = max 0 ((z : ℚ) / 100) := by
  unfold Cost
  rcases le_or_lt 0 ((z : ℚ) / 100) with h | h
  · rw [max_eq_left h, round2_div100, max_eq_right h]
  · rw [max_eq_right h.le, round2_zero, max_eq_left h.le]

mutual

/-- Engine cost values are non-negative multiples of one hundredth on every
node, the shape of the costs the engine prints with two decimals (the
non-negative real totals of the spec data model, at engine precision). -/
def RawPlan.CentsAll : RawPlan → Prop
  | .node _ tc _ _ _ ps => (∃ n : ℕ, tc = (n : ℚ) / 100) ∧ CentsAllList ps

/-- Cents condition on a list of raw plans. -/
def CentsAllList : List RawPlan → Prop
  | [] => True
  | p :: rest => RawPlan.CentsAll p ∧ CentsAllList rest

end

mutual

/-- A property holding on every node of an annotated plan. -/
def APlan.ForAll (P : APlan → Prop) : APlan → Prop
  | .node pid c ty tc pr fl rn ps => P (.node pid c ty tc pr fl rn ps) ∧ ForAllList P ps

/-- A property holding on every node of a list of annotated plans. -/
def ForAllList (P : APlan → Prop) : List APlan → Prop
  | [] => True
  | p :: rest => APlan.ForAll P p ∧ ForAllList P rest

end

mutual

theorem genIdsCost_keeps_totals : ∀ (ctr : String → ℕ) (p : RawPlan),
    ((genIdsCost ctr p).1).totalCost = p.totalCost
  | _, .node _ _ _ _ _ _ => rfl

theorem genIdsCostList_keeps_totals : ∀ (ctr : String → ℕ) (ps : List RawPlan),
    ((genIdsCostList ctr ps).1).map (fun c => c.totalCost) =
      ps.map (fun c => c.totalCost)
  | _, [] => rfl
  | ctr, p :: rest => by
    show ((genIdsCost ctr p).1).totalCost :: ((genIdsCostList (genIdsCost ctr p).2 rest).1).map
        (fun c => c.totalCost) = p.totalCost :: rest.map (fun c => c.totalCost)
    rw [genIdsCost_keeps_totals ctr p, genIdsCostList_keeps_totals (genIdsCost ctr p).2 rest]

end

theorem childSum_cents : ∀ ps : List RawPlan, CentsAllList ps →
    (ps.map (fun c => Cost c.totalCost)).sum = (ps.map (fun c => c.totalCost)).sum ∧
      ∃ n : ℕ, (ps.map (fun c => c.totalCost)).sum = (n : ℚ) / 100 := by
  intro ps
  induction ps with
  | nil => intro _; exact ⟨rfl, 0, by norm_num⟩
  | cons p rest ih =>
    intro h
    obtain ⟨hp, hrest⟩ := h
    obtain ⟨heq, n, hn⟩ := ih hrest
    rcases p with ⟨ty, tc, pr, fl, rn, subs⟩
    obtain ⟨⟨m, hm⟩, _⟩ := hp
    subst hm
    have htc : RawPlan.totalCost (RawPlan.node ty ((m : ℚ) / 100) pr fl rn subs) =
        (m : ℚ) / 100 := rfl
    constructor
    · simp only [List.map_cons, List.sum_cons, heq, htc]
      have hc := Cost_div100 (m : ℤ)
      push_cast at hc
      rw [hc, max_eq_right (by positivity)]
    · refine ⟨m + n, ?_⟩
      simp only [List.map_cons, List.sum_cons, hn, htc]
      push_cast
      ring

/-- Per-node own-cost property of claim C5 as amended: the own cost is
non-negative and equals the clamped two-decimal rounding of the total cost
minus the sum of the children total costs; and whenever the children total
costs do not exceed the node total cost, the own cost plus the children
total costs reproduces the node total cost within 0.01. -/
def ownCostOk (n : APlan) : Prop :=
  0 ≤ n.cost ∧
    n.cost = max 0 (round2 (n.totalCost - (n.plans.map (fun c => c.totalCost)).sum)) ∧
    ((n.plans.map (fun c => c.totalCost)).sum ≤ n.totalCost →
      |n.cost + (n.plans.map (fun c => c.totalCost)).sum - n.totalCost| ≤ 1 / 100)

/-- Per-node own-cost property exactly as claim C5 states it: the third
conjunct sums the OWN costs of the children and requires no hypothesis. -/
def claimOwnCostOk (n : APlan) : Prop :=
  0 ≤ n.cost ∧
    n.cost = max 0 (round2 (n.totalCost - (n.plans.map (fun c => c.totalCost)).sum)) ∧
    |n.cost + (n.plans.map (fun c => c.cost)).sum - n.totalCost| ≤ 1 / 100

mutual

theorem genIdsCost_ownCostOk : ∀ (ctr : String → ℕ) (p : RawPlan),
    RawPlan.CentsAll p → APlan.ForAll ownCostOk (genIdsCost ctr p).1
  | ctr, .node ty tc pr fl rn ps, h => by
    obtain ⟨⟨n, hn⟩, hps⟩ := h
    obtain ⟨heq, m, hm⟩ := childSum_cents ps hps
    constructor
    · show ownCostOk (.node (ty ++ "_" ++ Nat.repr (ctr ty))
        (Cost (tc - (ps.map (fun c => Cost c.totalCost)).sum)) ty tc pr fl rn
        ((genIdsCostList (fun s => if s = ty then ctr ty + 1 else ctr s) ps).1))
      have hplans : (((genIdsCostList (fun s => if s = ty then ctr ty + 1 else ctr s) ps).1).map
          (fun c => c.totalCost)).sum = (ps.map (fun c => c.totalCost)).sum := by
        rw [genIdsCostList_keeps_totals]
      have hsum : tc - (ps.map (fun c => Cost c.totalCost)).sum =
          (((n : ℤ) - (m : ℤ) : ℤ) : ℚ) / 100 := by
        rw [heq, hn, hm]
        push_cast
        ring
      refine ⟨?_, ?_, ?_⟩
      · show 0 ≤ Cost (tc - (ps.map (fun c => Cost c.totalCost)).sum)
        rw [hsum, Cost_div100]
        exact le_max_left 0 _
      · show Cost (tc - (ps.map (fun c => Cost c.totalCost)).sum) =
          max 0 (round2 (tc -
            (((genIdsCostList (fun s => if s = ty then ctr ty + 1 else ctr s) ps).1).map
              (fun c => c.totalCost)).sum))
        have hsum2 : tc - (((genIdsCostList (fun s => if s = ty then ctr ty + 1 else ctr s)
            ps).1).map (fun c => c.totalCost)).sum = (((n : ℤ) - (m : ℤ) : ℤ) : ℚ) / 100 := by
          rw [hplans, hn, hm]
          push_cast
          ring
        rw [hsum, hsum2, Cost_div100, round2_div100]
      · intro hle
        have hle2 : (((genIdsCostList (fun s => if s = ty then ctr ty + 1 else ctr s) ps).1).map
            (fun c => c.totalCost)).sum ≤ tc := hle
        rw [hplans] at hle2
        show |Cost (tc - (ps.map (fun c => Cost c.totalCost)).sum) +
          (((genIdsCostList (fun s => if s = ty then ctr ty + 1 else ctr s) ps).1).map
            (fun c => c.totalCost)).sum - tc| ≤ 1 / 100
        rw [hplans]
        rw [hsum, Cost_div100]
        have hnn : (0 : ℚ) ≤ (((n : ℤ) - (m : ℤ) : ℤ) : ℚ) / 100 := by
          rw [hn, hm] at hle2
          apply div_nonneg _ (by norm_num)
          push_cast
          have h100 : (0 : ℚ) < 100 := by norm_num
          rw [div_le_div_iff h100 h100] at hle2
          nlinarith
        rw [max_eq_right hnn, hm, hn]
        push_cast
        rw [show ((n : ℚ) - m) / 100 + m / 100 - n / 100 = 0 by ring]
        norm_num
    · exact genIdsCostList_ownCostOk _ ps hps

theorem genIdsCostList_ownCostOk : ∀ (ctr : String → ℕ) (ps : List RawPlan),
    CentsAllList ps → ForAllList ownCostOk (genIdsCostList ctr ps).1
  | _, [], _ => trivial
  | ctr, p :: rest, h => by
    obtain ⟨hp, hrest⟩ := h
    exact ⟨genIdsCost_ownCostOk ctr p hp,
      genIdsCostList_ownCostOk (genIdsCost ctr p).2 rest hrest⟩

end


/-- Raw leaf node C with total cost 10 and no children. -/
def chainC : RawPlan := .node "C" 10 0 none none []

/-- Raw node B with total cost 15 and single child C. -/
def chainB : RawPlan := .node "B" 15 0 none none [chainC]

/-- Raw root node A with total cost 20 and single child B: a three-node chain
whose grandchild cost makes the claim-as-stated identity fail at the root. -/
def chainA : RawPlan := .node "A" 20 0 none none [chainB]

instance decClaimOwnCostOk (n : APlan) : Decidable (claimOwnCostOk n) := by
  unfold claimOwnCostOk
  infer_instance

/-- C5 counterexample: on the chain A(20)-B(15)-C(10), the root own cost is
20 - 15 = 5, the child own cost is 15 - 10 = 5, and own cost plus children
OWN costs is 10, which misses the root total cost 20 by 10, far beyond the
claimed 0.01 tolerance; the claim as stated is false. -/
theorem C5_root_plus_children_own_misses_total :
    ¬ claimOwnCostOk (annotatePlan chainA) := by
  set_option maxRecDepth 40000 in with_unfolding_all decide


/-- C5 amended: for any raw plan whose engine totals are non-negative
multiples of 0.01 (the shape of all engine-printed costs), every node of the
annotated plan has a non-negative own cost equal to the clamped two-decimal
rounding of its total cost minus the sum of its children TOTAL costs, and
whenever the children totals do not exceed the node total, own cost plus the
children total costs reproduces the node total cost within 0.01. -/
theorem C5_own_cost_reproduces_totals (p : RawPlan) (h : RawPlan.CentsAll p) :
    APlan.ForAll ownCostOk (annotatePlan p) := by
  unfold annotatePlan
  exact genIdsCost_ownCostOk (fun _ => 1) p h

/-- Witness: the chain A(20)-B(15)-C(10) has cent-valued totals and its
annotated plan satisfies the amended own-cost property on every node. -/
theorem C5_own_cost_reproduces_totals_witness :
    RawPlan.CentsAll chainA ∧ APlan.ForAll ownCostOk (annotatePlan chainA) := by
  have hc : RawPlan.CentsAll chainA := by
    simp only [chainA, chainB, chainC, RawPlan.CentsAll, CentsAllList, and_true]
    refine ⟨⟨2000, by norm_num⟩, ⟨1500, by norm_num⟩, ⟨1000, by norm_num⟩⟩
  exact ⟨hc, C5_own_cost_reproduces_totals chainA hc⟩


theorem insertByPlan_filter (x : ℕ × ℕ × ℕ) (p : ℕ) :
    ∀ ys : List (ℕ × ℕ × ℕ),
      (insertByPlan x ys).filter (fun t => t.1 = p) =
        if x.1 = p then x :: ys.filter (fun t => t.1 = p)
        else ys.filter (fun t => t.1 = p)
  | [] => by
    by_cases h : x.1 = p <;> simp [insertByPlan, h]
  | y :: ys => by
    rcases Nat.lt_or_ge y.1 x.1 with hlt | hge
    · have hstep0 : insertByPlan x (y :: ys) =
          if y.1 < x.1 then y :: insertByPlan x ys else x :: y :: ys := rfl
      rw [hstep0, if_pos hlt]
      by_cases hy : y.1 = p
      · have hx : ¬ x.1 = p := by omega
        simp [List.filter_cons, hy, hx, insertByPlan_filter x p ys]
      · simp [List.filter_cons, hy, insertByPlan_filter x p ys]
    · have hstep0 : insertByPlan x (y :: ys) =
          if y.1 < x.1 then y :: insertByPlan x ys else x :: y :: ys := rfl
      rw [hstep0, if_neg (Nat.not_lt.mpr hge)]
      by_cases hx : x.1 = p
      · simp [List.filter_cons, hx]
      · simp [List.filter_cons, hx]

theorem sortByPlan_filter (p : ℕ) :
    ∀ l : List (ℕ × ℕ × ℕ),
      (sortByPlan l).filter (fun t => t.1 = p) = l.filter (fun t => t.1 = p)
  | [] => rfl
  | a :: l => by
    show (insertByPlan a (sortByPlan l)).filter (fun t => t.1 = p) = _
    rw [insertByPlan_filter, sortByPlan_filter p l]
    by_cases h : a.1 = p <;> simp [List.filter_cons, h]

/-- Invariant of the grouping fold: every bucket of the accumulator holds
exactly the consumed items of its key in input order, and the accumulator
has a bucket for a key exactly when some consumed item has that key. -/
def SplitInv (c : List (ℕ × ℕ × ℕ)) (acc : List (ℕ × List (ℕ × ℕ × ℕ))) : Prop :=
  (∀ kg ∈ acc, kg.2 = c.filter (fun t => t.1 = kg.1) ∧ kg.2 ≠ []) ∧
  (∀ k : ℕ, (∃ g ∈ acc, g.1 = k) ↔ (∃ t ∈ c, t.1 = k))

theorem splitStep_inv (c : List (ℕ × ℕ × ℕ)) (acc : List (ℕ × List (ℕ × ℕ × ℕ)))
    (item : ℕ × ℕ × ℕ) (h : SplitInv c acc) : SplitInv (c ++ [item]) (splitStep acc item) := by
  obtain ⟨hbk, hky⟩ := h
  unfold splitStep
  by_cases hany : acc.any (fun g => g.1 = item.1)
  · rw [if_pos hany]
    rw [List.any_eq_true] at hany
    simp only [decide_eq_true_eq] at hany
    constructor
    · intro kg hkg
      rw [List.mem_map] at hkg
      obtain ⟨g, hg, hgk⟩ := hkg
      obtain ⟨hgf, hgne⟩ := hbk g hg
      by_cases hk : g.1 = item.1
      · rw [if_pos hk] at hgk
        subst hgk
        refine ⟨?_, by simp⟩
        show g.2 ++ [item] = (c ++ [item]).filter (fun t => t.1 = g.1)
        rw [List.filter_append, ← hgf]
        simp [hk]
      · rw [if_neg hk] at hgk
        subst hgk
        refine ⟨?_, hgne⟩
        rw [List.filter_append, ← hgf]
        have : ¬ item.1 = g.1 := fun hh => hk hh.symm
        simp [this]
    · intro k
      constructor
      · intro hex
        obtain ⟨g, hg, hgk⟩ := hex
        rw [List.mem_map] at hg
        obtain ⟨g0, hg0, hg0e⟩ := hg
        have hfst : g.1 = g0.1 := by
          by_cases hk : g0.1 = item.1
          · rw [if_pos hk] at hg0e; subst hg0e; rfl
          · rw [if_neg hk] at hg0e; subst hg0e; rfl
        have := (hky k).mp ⟨g0, hg0, by rw [← hfst, hgk]⟩
        obtain ⟨t, ht, htk⟩ := this
        exact ⟨t, List.mem_append_left _ ht, htk⟩
      · intro hex
        obtain ⟨t, ht, htk⟩ := hex
        rw [List.mem_append] at ht
        rcases ht with ht | ht
        · obtain ⟨g, hg, hgk⟩ := (hky k).mpr ⟨t, ht, htk⟩
          refine ⟨if g.1 = item.1 then (g.1, g.2 ++ [item]) else g, List.mem_map_of_mem _ hg, ?_⟩
          by_cases hk : g.1 = item.1
          · rw [if_pos hk]; exact hgk
          · rw [if_neg hk]; exact hgk
        · rw [List.mem_singleton] at ht
          obtain ⟨g, hg, hgk⟩ := hany
          refine ⟨if g.1 = item.1 then (g.1, g.2 ++ [item]) else g, List.mem_map_of_mem _ hg, ?_⟩
          rw [if_pos hgk]
          show g.1 = k
          rw [hgk, ← ht]
          exact htk
  · rw [if_neg hany]
    have hnone : ∀ g ∈ acc, ¬ g.1 = item.1 := by
      intro g hg hk
      exact hany (List.any_eq_true.mpr ⟨g, hg, by simp [hk]⟩)
    have hcnone : ∀ t ∈ c, ¬ t.1 = item.1 := by
      intro t ht hk
      obtain ⟨g, hg, hgk⟩ := (hky item.1).mpr ⟨t, ht, hk⟩
      exact hnone g hg hgk
    constructor
    · intro kg hkg
      rw [List.mem_append] at hkg
      rcases hkg with hkg | hkg
      · obtain ⟨hgf, hgne⟩ := hbk kg hkg
        refine ⟨?_, hgne⟩
        rw [List.filter_append, ← hgf]
        have : ¬ item.1 = kg.1 := fun hh => hnone kg hkg hh.symm
        simp [this]
      · rw [List.mem_singleton] at hkg
        subst hkg
        refine ⟨?_, by simp⟩
        show [item] = (c ++ [item]).filter (fun t => t.1 = item.1)
        rw [List.filter_append]
        have hcf : c.filter (fun t => t.1 = item.1) = [] := by
          rw [List.filter_eq_nil]
          intro t ht
          simp only [decide_eq_true_eq]
          exact hcnone t ht
        rw [hcf]
        simp
    · intro k
      constructor
      · intro hex
        obtain ⟨g, hg, hgk⟩ := hex
        rw [List.mem_append] at hg
        rcases hg with hg | hg
        · obtain ⟨t, ht, htk⟩ := (hky k).mp ⟨g, hg, hgk⟩
          exact ⟨t, List.mem_append_left _ ht, htk⟩
        · rw [List.mem_singleton] at hg
          subst hg
          exact ⟨item, List.mem_append_right _ (List.mem_singleton.mpr rfl), hgk⟩
      · intro hex
        obtain ⟨t, ht, htk⟩ := hex
        rw [List.mem_append] at ht
        rcases ht with ht | ht
        · obtain ⟨g, hg, hgk⟩ := (hky k).mpr ⟨t, ht, htk⟩
          exact ⟨g, List.mem_append_left _ hg, hgk⟩
        · rw [List.mem_singleton] at ht
          subst ht
          exact ⟨(t.1, [t]), List.mem_append_right _ (List.mem_singleton.mpr rfl), htk⟩

theorem split_go : ∀ (items : List (ℕ × ℕ × ℕ)) (c : List (ℕ × ℕ × ℕ))
    (acc : List (ℕ × List (ℕ × ℕ × ℕ))), SplitInv c acc →
      SplitInv (c ++ items) (items.foldl splitStep acc)
  | [], c, acc, h => by simpa using h
  | item :: items, c, acc, h => by
    have h2 := split_go items (c ++ [item]) (splitStep acc item) (splitStep_inv c acc item h)
    rw [List.append_assoc] at h2
    simpa using h2

theorem split_buckets (items : List (ℕ × ℕ × ℕ)) :
    ∀ kg ∈ splitListOfTuplesByKey items,
      kg.2 = items.filter (fun t => t.1 = kg.1) ∧ kg.2 ≠ [] := by
  have h0 : SplitInv [] [] := ⟨fun kg hkg => absurd hkg (List.not_mem_nil kg), by simp⟩
  have h := split_go items [] [] h0
  rw [List.nil_append] at h
  exact h.1



theorem pyMinT_go (p : ℕ) : ∀ (xs : List (ℕ × ℕ × ℕ)) (m : ℕ × ℕ × ℕ),
    m.1 = p → (∀ t ∈ xs, t.1 = p) →
      (xs.foldl (fun m y => if tripleLt y m then y else m) m).2.1 =
        xs.foldl (fun a t => min a t.2.1) m.2.1
  | [], _, _, _ => rfl
  | y :: xs, m, hm, hall => by
    have hy : y.1 = p := hall y (List.mem_cons_self _ _)
    rw [List.foldl_cons, List.foldl_cons]
    have hm2 : (if tripleLt y m then y else m).1 = p := by
      split
      · exact hy
      · exact hm
    rw [pyMinT_go p xs _ hm2 (fun t ht => hall t (List.mem_cons_of_mem _ ht))]
    have hstep : (if tripleLt y m then y else m).2.1 = min m.2.1 y.2.1 := by
      simp only [tripleLt, decide_eq_true_eq]
      split
      · next h => omega
      · next h => omega
    rw [hstep]

theorem pyMaxT_go (p : ℕ) : ∀ (xs : List (ℕ × ℕ × ℕ)) (m : ℕ × ℕ × ℕ),
    m.1 = p → (∀ t ∈ xs, t.1 = p) →
      (xs.foldl (fun m y => if tripleLt m y then y else m) m).2.1 =
        xs.foldl (fun a t => max a t.2.1) m.2.1
  | [], _, _, _ => rfl
  | y :: xs, m, hm, hall => by
    have hy : y.1 = p := hall y (List.mem_cons_self _ _)
    rw [List.foldl_cons, List.foldl_cons]
    have hm2 : (if tripleLt m y then y else m).1 = p := by
      split
      · exact hy
      · exact hm
    rw [pyMaxT_go p xs _ hm2 (fun t ht => hall t (List.mem_cons_of_mem _ ht))]
    have hstep : (if tripleLt m y then y else m).2.1 = max m.2.1 y.2.1 := by
      simp only [tripleLt, decide_eq_true_eq]
      split
      · next h => omega
      · next h => omega
    rw [hstep]

theorem pyMinT_col_go (p r : ℕ) : ∀ (xs : List (ℕ × ℕ × ℕ)) (m : ℕ × ℕ × ℕ),
    m.1 = p → m.2.1 = r → (∀ t ∈ xs, t.1 = p ∧ t.2.1 = r) →
      (xs.foldl (fun m y => if tripleLt y m then y else m) m).2.2 =
        xs.foldl (fun a t => min a t.2.2) m.2.2
  | [], _, _, _, _ => rfl
  | y :: xs, m, hm, hmr, hall => by
    obtain ⟨hy, hyr⟩ := hall y (List.mem_cons_self _ _)
    rw [List.foldl_cons, List.foldl_cons]
    have hm2 : (if tripleLt y m then y else m).1 = p := by
      split
      · exact hy
      · exact hm
    have hm2r : (if tripleLt y m then y else m).2.1 = r := by
      split
      · exact hyr
      · exact hmr
    rw [pyMinT_col_go p r xs _ hm2 hm2r (fun t ht => hall t (List.mem_cons_of_mem _ ht))]
    have hstep : (if tripleLt y m then y else m).2.2 = min m.2.2 y.2.2 := by
      simp only [tripleLt, decide_eq_true_eq]
      split
      · next h => omega
      · next h => omega
    rw [hstep]

theorem pyMaxT_col_go (p r : ℕ) : ∀ (xs : List (ℕ × ℕ × ℕ)) (m : ℕ × ℕ × ℕ),
    m.1 = p → m.2.1 = r → (∀ t ∈ xs, t.1 = p ∧ t.2.1 = r) →
      (xs.foldl (fun m y => if tripleLt m y then y else m) m).2.2 =
        xs.foldl (fun a t => max a t.2.2) m.2.2
  | [], _, _, _, _ => rfl
  | y :: xs, m, hm, hmr, hall => by
    obtain ⟨hy, hyr⟩ := hall y (List.mem_cons_self _ _)
    rw [List.foldl_cons, List.foldl_cons]
    have hm2 : (if tripleLt m y then y else m).1 = p := by
      split
      · exact hy
      · exact hm
    have hm2r : (if tripleLt m y then y else m).2.1 = r := by
      split
      · exact hyr
      · exact hmr
    rw [pyMaxT_col_go p r xs _ hm2 hm2r (fun t ht => hall t (List.mem_cons_of_mem _ ht))]
    have hstep : (if tripleLt m y then y else m).2.2 = max m.2.2 y.2.2 := by
      simp only [tripleLt, decide_eq_true_eq]
      split
      · next h => omega
      · next h => omega
    rw [hstep]



/-- Minimum of a nonempty list of naturals (zero on the empty list, which
never arises): the bounding-box bound named by the claim. -/
def listMinN : List ℕ → ℕ
  | [] => 0
  | x :: xs => xs.foldl (fun a b => min a b) x

/-- Maximum of a nonempty list of naturals: the bounding-box bound named by
the claim. -/
def listMaxN : List ℕ → ℕ
  | [] => 0
  | x :: xs => xs.foldl (fun a b => max a b) x

/-- Cells of the reshaped grid holding a given plan index, as the claim
words it: the (plan, row, col) triples whose plan component is that plan. -/
def cellsOfPlan (p : ℕ) (l : List ℕ) : List (ℕ × ℕ × ℕ) :=
  (cellTriples l).filter (fun t => t.1 = p)

theorem pyMinT_row_of_const (p : ℕ) (g : List (ℕ × ℕ × ℕ)) (hne : g ≠ [])
    (hall : ∀ t ∈ g, t.1 = p) :
    (pyMinT g).2.1 = listMinN (g.map (fun t => t.2.1)) := by
  cases g with
  | nil => exact absurd rfl hne
  | cons x xs =>
    show (xs.foldl (fun m y => if tripleLt y m then y else m) x).2.1 = _
    rw [pyMinT_go p xs x (hall x (List.mem_cons_self _ _))
      (fun t ht => hall t (List.mem_cons_of_mem _ ht))]
    show _ = listMinN (x.2.1 :: xs.map (fun t => t.2.1))
    show _ = (xs.map (fun t => t.2.1)).foldl (fun a b => min a b) x.2.1
    rw [List.foldl_map]

theorem pyMaxT_row_of_const (p : ℕ) (g : List (ℕ × ℕ × ℕ)) (hne : g ≠ [])
    (hall : ∀ t ∈ g, t.1 = p) :
    (pyMaxT g).2.1 = listMaxN (g.map (fun t => t.2.1)) := by
  cases g with
  | nil => exact absurd rfl hne
  | cons x xs =>
    show (xs.foldl (fun m y => if tripleLt m y then y else m) x).2.1 = _
    rw [pyMaxT_go p xs x (hall x (List.mem_cons_self _ _))
      (fun t ht => hall t (List.mem_cons_of_mem _ ht))]
    show _ = (xs.map (fun t => t.2.1)).foldl (fun a b => max a b) x.2.1
    rw [List.foldl_map]

theorem pyMinT_col_of_const (p r : ℕ) (g : List (ℕ × ℕ × ℕ)) (hne : g ≠ [])
    (hall : ∀ t ∈ g, t.1 = p ∧ t.2.1 = r) :
    (pyMinT g).2.2 = listMinN (g.map (fun t => t.2.2)) := by
  cases g with
  | nil => exact absurd rfl hne
  | cons x xs =>
    show (xs.foldl (fun m y => if tripleLt y m then y else m) x).2.2 = _
    rw [pyMinT_col_go p r xs x (hall x (List.mem_cons_self _ _)).1
      (hall x (List.mem_cons_self _ _)).2
      (fun t ht => hall t (List.mem_cons_of_mem _ ht))]
    show _ = (xs.map (fun t => t.2.2)).foldl (fun a b => min a b) x.2.2
    rw [List.foldl_map]

theorem pyMaxT_col_of_const (p r : ℕ) (g : List (ℕ × ℕ × ℕ)) (hne : g ≠ [])
    (hall : ∀ t ∈ g, t.1 = p ∧ t.2.1 = r) :
    (pyMaxT g).2.2 = listMaxN (g.map (fun t => t.2.2)) := by
  cases g with
  | nil => exact absurd rfl hne
  | cons x xs =>
    show (xs.foldl (fun m y => if tripleLt m y then y else m) x).2.2 = _
    rw [pyMaxT_col_go p r xs x (hall x (List.mem_cons_self _ _)).1
      (hall x (List.mem_cons_self _ _)).2
      (fun t ht => hall t (List.mem_cons_of_mem _ ht))]
    show _ = (xs.map (fun t => t.2.2)).foldl (fun a b => max a b) x.2.2
    rw [List.foldl_map]

theorem convert2DArrayF_nil (n : ℕ) : ∀ fuel : ℕ, convert2DArrayF fuel ([] : List ℕ) n = []
  | 0 => rfl
  | _ + 1 => rfl

theorem cellTriples_short (l : List ℕ) (h : l.length ≤ RESOLUTION) :
    ∀ t ∈ cellTriples l, t.2.1 = 0 := by
  cases l with
  | nil =>
    intro t ht
    simp [cellTriples, convert2DArray, convert2DArrayF] at ht
  | cons a l2 =>
    have hgrid : convert2DArray (a :: l2) RESOLUTION = [a :: l2] := by
      show convert2DArrayF (l2.length + 1) (a :: l2) RESOLUTION = [a :: l2]
      rw [show convert2DArrayF (l2.length + 1) (a :: l2) RESOLUTION =
        (a :: l2).take RESOLUTION ::
          convert2DArrayF l2.length ((a :: l2).drop RESOLUTION) RESOLUTION from rfl]
      rw [List.take_of_length_le h, List.drop_eq_nil_of_le h, convert2DArrayF_nil]
    intro t ht
    rw [cellTriples, hgrid] at ht
    simp only [List.enum_cons, List.map_cons, List.map_nil, List.flatten] at ht
    simp only [List.enum_nil, List.map_nil, List.append_nil, List.flatten_nil] at ht
    rw [List.mem_cons] at ht
    rcases ht with ht | ht
    · rw [ht]
    · rw [List.mem_map] at ht
      obtain ⟨cp, _, hcp⟩ := ht
      rw [← hcp]



theorem sndMemOfMemEnumFrom {α : Type} : ∀ (l : List α) (n : ℕ) (q : ℕ × α),
    q ∈ l.enumFrom n → q.2 ∈ l
  | [], _, _, h => absurd h (List.not_mem_nil _)
  | a :: l, n, q, h => by
    rw [show (a :: l).enumFrom n = (n, a) :: l.enumFrom (n + 1) from rfl, List.mem_cons] at h
    rcases h with h | h
    · rw [h]
      exact List.mem_cons_self _ _
    · exact List.mem_cons_of_mem _ (sndMemOfMemEnumFrom l (n + 1) q h)

/-- Claim C3 amended: every entry of the synthesizer output belongs to some
plan index p with a nonempty cell set; its first range is the true bounding
pair (minimum row, maximum row) of the cells holding p; its second range
pairs the column of the lexicographically least cell with the column of the
lexicographically greatest cell, which in the one-row case (at most
RESOLUTION grid entries) is the true bounding pair
(minimum column, maximum column). -/
theorem C3_selectivity_bounding_box (l : List ℕ) (e : ℕ × (ℕ × ℕ) × (ℕ × ℕ))
    (he : e ∈ retrieveSelectivityRanges l) :
    ∃ p : ℕ, cellsOfPlan p l ≠ [] ∧
      e.2.1 = (listMinN ((cellsOfPlan p l).map (fun t => t.2.1)),
               listMaxN ((cellsOfPlan p l).map (fun t => t.2.1))) ∧
      e.2.2 = ((pyMinT (cellsOfPlan p l)).2.2, (pyMaxT (cellsOfPlan p l)).2.2) ∧
      (l.length ≤ RESOLUTION →
        e.2.2 = (listMinN ((cellsOfPlan p l).map (fun t => t.2.2)),
                 listMaxN ((cellsOfPlan p l).map (fun t => t.2.2)))) := by
  have hre : retrieveSelectivityRanges l =
      ((splitListOfTuplesByKey (sortByPlan (cellTriples l))).map (fun g => g.2)).enum.map
        (fun g => (g.1 + 1, ((pyMinT g.2).2.1, (pyMaxT g.2).2.1),
          ((pyMinT g.2).2.2, (pyMaxT g.2).2.2))) := rfl
  rw [hre, List.mem_map] at he
  obtain ⟨ig, hig, hige⟩ := he
  have hgmem : ig.2 ∈ (splitListOfTuplesByKey (sortByPlan (cellTriples l))).map (fun g => g.2) :=
    sndMemOfMemEnumFrom _ 0 ig hig
  rw [List.mem_map] at hgmem
  obtain ⟨kg, hkg, hkge⟩ := hgmem
  obtain ⟨hbucket, hne⟩ := split_buckets _ kg hkg
  have hcells : ig.2 = cellsOfPlan kg.1 l := by
    rw [← hkge]
    show kg.2 = _
    rw [hbucket, sortByPlan_filter]
    rfl
  have hne2 : cellsOfPlan kg.1 l ≠ [] := by
    rw [← hcells, ← hkge]
    exact hne
  have hall : ∀ t ∈ cellsOfPlan kg.1 l, t.1 = kg.1 := by
    intro t ht
    rw [cellsOfPlan, List.mem_filter] at ht
    simpa using ht.2
  refine ⟨kg.1, hne2, ?_, ?_, ?_⟩
  · rw [← hige]
    show ((pyMinT ig.2).2.1, (pyMaxT ig.2).2.1) = _
    rw [hcells, pyMinT_row_of_const kg.1 _ hne2 hall, pyMaxT_row_of_const kg.1 _ hne2 hall]
  · rw [← hige]
    show ((pyMinT ig.2).2.2, (pyMaxT ig.2).2.2) = _
    rw [hcells]
  · intro hlen
    have hall2 : ∀ t ∈ cellsOfPlan kg.1 l, t.1 = kg.1 ∧ t.2.1 = 0 := by
      intro t ht
      refine ⟨hall t ht, ?_⟩
      rw [cellsOfPlan, List.mem_filter] at ht
      exact cellTriples_short l hlen t ht.1
    rw [← hige]
    show ((pyMinT ig.2).2.2, (pyMaxT ig.2).2.2) = _
    rw [hcells, pyMinT_col_of_const kg.1 0 _ hne2 hall2, pyMaxT_col_of_const kg.1 0 _ hne2 hall2]



/-- Two-row grid (RESOLUTION columns per row) in which plan 2 occupies the
cells (row 0, col 5) and (row 1, col 2) and plan 1 all other cells. -/
def gridTwoRow : List ℕ :=
  [1, 1, 1, 1, 1, 2, 1, 1, 1, 1, 1, 1, 2, 1, 1, 1, 1, 1, 1, 1]

/-- C3 counterexample: on the two-row grid, the synthesizer returns the
column pair (5, 2) for plan 2 — the column of the lexicographically least
cell paired with the column of the lexicographically greatest cell — while
the bounding box of the plan-2 columns is (2, 5), because the Python code
takes min(lst)[2] and max(lst)[2] of whole tuples rather than of the column
components; the claimed bounding-box property fails in two dimensions. -/
theorem C3_two_dimensional_columns_not_bounding_box :
    retrieveSelectivityRanges gridTwoRow =
        [(1, ((0, 1), (0, 9))), (2, ((0, 1), (5, 2)))] ∧
      (listMinN ((cellsOfPlan 2 gridTwoRow).map (fun t => t.2.2)),
        listMaxN ((cellsOfPlan 2 gridTwoRow).map (fun t => t.2.2))) = (2, 5) ∧
      ((5, 2) : ℕ × ℕ) ≠ (2, 5) := by
  refine ⟨by decide, by decide, by decide⟩

/-- Witness: on the one-row grid of the claim example (cells 0-3 hold plan
1, cells 4-9 hold plan 2), the entry of plan 2 is (2, ((0, 0), (4, 9))),
its ranges are the true bounding boxes, and the percentage conversion gives
plan 1 the range 0 to 40 and plan 2 the range 40 to 100. -/
theorem C3_selectivity_bounding_box_witness :
    ((2, ((0, 0), (4, 9))) : ℕ × (ℕ × ℕ) × (ℕ × ℕ)) ∈
        retrieveSelectivityRanges [1, 1, 1, 1, 2, 2, 2, 2, 2, 2] ∧
      percentRange (0, 3) = (0, 40) ∧ percentRange (4, 9) = (40, 100) ∧
      ∃ p : ℕ, cellsOfPlan p [1, 1, 1, 1, 2, 2, 2, 2, 2, 2] ≠ [] ∧
        ((0, 0) : ℕ × ℕ) =
          (listMinN ((cellsOfPlan p [1, 1, 1, 1, 2, 2, 2, 2, 2, 2]).map (fun t => t.2.1)),
            listMaxN ((cellsOfPlan p [1, 1, 1, 1, 2, 2, 2, 2, 2, 2]).map (fun t => t.2.1))) ∧
        ((4, 9) : ℕ × ℕ) =
          ((pyMinT (cellsOfPlan p [1, 1, 1, 1, 2, 2, 2, 2, 2, 2])).2.2,
            (pyMaxT (cellsOfPlan p [1, 1, 1, 1, 2, 2, 2, 2, 2, 2])).2.2) ∧
        (([1, 1, 1, 1, 2, 2, 2, 2, 2, 2] : List ℕ).length ≤ RESOLUTION →
          ((4, 9) : ℕ × ℕ) =
            (listMinN ((cellsOfPlan p [1, 1, 1, 1, 2, 2, 2, 2, 2, 2]).map (fun t => t.2.2)),
              listMaxN ((cellsOfPlan p [1, 1, 1, 1, 2, 2, 2, 2, 2, 2]).map (fun t => t.2.2)))) :=
  ⟨by decide, by decide, by decide,
    C3_selectivity_bounding_box [1, 1, 1, 1, 2, 2, 2, 2, 2, 2] (2, ((0, 0), (4, 9))) (by decide)⟩


/-- Numeric value of a decimal digit character. -/
def digitVal (c : Char) : ℕ := c.toNat - 48

/-- Decimal interpretation of a digit string, most significant first. -/
def readBack (l : List Char) : ℕ := l.foldl (fun a c => 10 * a + digitVal c) 0

theorem digitChar_ne (m : ℕ) (h : m < 10) : Nat.digitChar m ≠ '_' := by
  interval_cases m <;> decide

theorem digitVal_digitChar (m : ℕ) (h : m < 10) : digitVal (Nat.digitChar m) = m := by
  interval_cases m <;> decide

theorem toDigitsCore_append : ∀ (fuel n : ℕ) (acc : List Char),
    Nat.toDigitsCore 10 fuel n acc = Nat.toDigitsCore 10 fuel n [] ++ acc
  | 0, n, acc => rfl
  | fuel + 1, n, acc => by
    have hu : ∀ acc2 : List Char, Nat.toDigitsCore 10 (fuel + 1) n acc2 =
        if n / 10 = 0 then Nat.digitChar (n % 10) :: acc2
        else Nat.toDigitsCore 10 fuel (n / 10) (Nat.digitChar (n % 10) :: acc2) :=
      fun _ => rfl
    by_cases h : n / 10 = 0
    · rw [hu, hu, if_pos h, if_pos h]
      rfl
    · rw [hu, hu, if_neg h, if_neg h,
        toDigitsCore_append fuel (n / 10) (Nat.digitChar (n % 10) :: acc),
        toDigitsCore_append fuel (n / 10) [Nat.digitChar (n % 10)], List.append_assoc]
      rfl

theorem toDigitsCore_fuel : ∀ (f1 n : ℕ), n < f1 → ∀ (f2 : ℕ), n < f2 →
    Nat.toDigitsCore 10 f1 n [] = Nat.toDigitsCore 10 f2 n []
  | 0, n, h, _, _ => absurd h (Nat.not_lt_zero n)
  | _ + 1, n, _, 0, h2 => absurd h2 (Nat.not_lt_zero n)
  | f1 + 1, n, h1, f2 + 1, h2 => by
    have hu1 : ∀ acc2 : List Char, Nat.toDigitsCore 10 (f1 + 1) n acc2 =
        if n / 10 = 0 then Nat.digitChar (n % 10) :: acc2
        else Nat.toDigitsCore 10 f1 (n / 10) (Nat.digitChar (n % 10) :: acc2) :=
      fun _ => rfl
    have hu2 : ∀ acc2 : List Char, Nat.toDigitsCore 10 (f2 + 1) n acc2 =
        if n / 10 = 0 then Nat.digitChar (n % 10) :: acc2
        else Nat.toDigitsCore 10 f2 (n / 10) (Nat.digitChar (n % 10) :: acc2) :=
      fun _ => rfl
    by_cases h : n / 10 = 0
    · rw [hu1, hu2, if_pos h, if_pos h]
    · rw [hu1, hu2, if_neg h, if_neg h,
        toDigitsCore_append f1 (n / 10) [Nat.digitChar (n % 10)],
        toDigitsCore_append f2 (n / 10) [Nat.digitChar (n % 10)],
        toDigitsCore_fuel f1 (n / 10) (by omega) f2 (by omega)]

theorem readBack_append_singleton (l : List Char) (c : Char) :
    readBack (l ++ [c]) = 10 * readBack l + digitVal c := by
  unfold readBack
  rw [List.foldl_append]
  rfl

theorem readBack_toDigitsCore : ∀ (fuel n : ℕ), n < fuel →
    readBack (Nat.toDigitsCore 10 fuel n []) = n
  | 0, n, h => absurd h (Nat.not_lt_zero n)
  | fuel + 1, n, h => by
    have hu : ∀ acc2 : List Char, Nat.toDigitsCore 10 (fuel + 1) n acc2 =
        if n / 10 = 0 then Nat.digitChar (n % 10) :: acc2
        else Nat.toDigitsCore 10 fuel (n / 10) (Nat.digitChar (n % 10) :: acc2) :=
      fun _ => rfl
    by_cases h0 : n / 10 = 0
    · rw [hu, if_pos h0]
      show 10 * 0 + digitVal (Nat.digitChar (n % 10)) = n
      rw [digitVal_digitChar (n % 10) (by omega)]
      omega
    · rw [hu, if_neg h0, toDigitsCore_append, readBack_append_singleton,
        readBack_toDigitsCore fuel (n / 10) (by omega),
        digitVal_digitChar (n % 10) (by omega)]
      omega

theorem natRepr_inj (m n : ℕ) (h : Nat.repr m = Nat.repr n) : m = n := by
  have hlist : Nat.toDigitsCore 10 (m + 1) m [] = Nat.toDigitsCore 10 (n + 1) n [] :=
    congrArg String.data h
  have h1 := readBack_toDigitsCore (m + 1) m (by omega)
  have h2 := readBack_toDigitsCore (n + 1) n (by omega)
  rw [← h1, ← h2, hlist]

theorem toDigitsCore_ufree : ∀ (fuel n : ℕ) (acc : List Char),
    (∀ c ∈ acc, c ≠ '_') → ∀ c ∈ Nat.toDigitsCore 10 fuel n acc, c ≠ '_'
  | 0, _, _, hacc => hacc
  | fuel + 1, n, acc, hacc => by
    have hu : ∀ acc2 : List Char, Nat.toDigitsCore 10 (fuel + 1) n acc2 =
        if n / 10 = 0 then Nat.digitChar (n % 10) :: acc2
        else Nat.toDigitsCore 10 fuel (n / 10) (Nat.digitChar (n % 10) :: acc2) :=
      fun _ => rfl
    by_cases h0 : n / 10 = 0
    · rw [hu, if_pos h0]
      intro c hc
      rw [List.mem_cons] at hc
      rcases hc with hc | hc
      · rw [hc]
        exact digitChar_ne (n % 10) (by omega)
      · exact hacc c hc
    · rw [hu, if_neg h0]
      refine toDigitsCore_ufree fuel (n / 10) _ ?_
      intro c hc
      rw [List.mem_cons] at hc
      rcases hc with hc | hc
      · rw [hc]
        exact digitChar_ne (n % 10) (by omega)
      · exact hacc c hc

theorem reprUFree (n : ℕ) : ∀ c ∈ (Nat.repr n).data, c ≠ '_' := by
  intro c hc
  exact toDigitsCore_ufree (n + 1) n [] (fun c hc2 => absurd hc2 (List.not_mem_nil c)) c hc

theorem underscore_decomp : ∀ (a b d e : List Char),
    (∀ c ∈ d, c ≠ '_') → (∀ c ∈ e, c ≠ '_') →
      a ++ '_' :: d = b ++ '_' :: e → a = b ∧ d = e
  | [], [], d, e, _, _, h => by
    rw [List.nil_append, List.nil_append] at h
    injection h with _ h2
    exact ⟨rfl, h2⟩
  | [], x :: b, d, e, hd, _, h => by
    rw [List.nil_append, List.cons_append] at h
    injection h with _ h2
    exact absurd rfl (hd '_' (h2 ▸ List.mem_append_right b (List.mem_cons_self _ _)))
  | x :: a, [], d, e, _, he, h => by
    rw [List.cons_append, List.nil_append] at h
    injection h with _ h2
    exact absurd rfl (he '_' (h2 ▸ List.mem_append_right a (List.mem_cons_self _ _)))
  | x :: a, y :: b, d, e, hd, he, h => by
    rw [List.cons_append, List.cons_append] at h
    injection h with h1 h2
    obtain ⟨ha, hde⟩ := underscore_decomp a b d e hd he h2
    exact ⟨by rw [h1, ha], hde⟩

theorem strExt (s t : String) (h : s.data = t.data) : s = t := by
  cases s
  cases t
  exact congrArg String.mk h

theorem idInj (ty1 ty2 : String) (k1 k2 : ℕ)
    (h : ty1 ++ "_" ++ Nat.repr k1 = ty2 ++ "_" ++ Nat.repr k2) :
    ty1 = ty2 ∧ k1 = k2 := by
  have hdata : ty1.data ++ '_' :: (Nat.repr k1).data =
      ty2.data ++ '_' :: (Nat.repr k2).data := by
    have h0 := congrArg String.data h
    simpa [String.data_append] using h0
  obtain ⟨hty, hk⟩ := underscore_decomp _ _ _ _ (reprUFree k1) (reprUFree k2) hdata
  exact ⟨strExt _ _ hty, natRepr_inj _ _ (strExt _ _ hk)⟩



/-- Identifier freshness interval: the string is kind_k for a counter value
k at least the starting counter of its kind and below the final counter. -/
def IdIn (c0 c1 : String → ℕ) (s : String) : Prop :=
  ∃ ty k, s = ty ++ "_" ++ Nat.repr k ∧ c0 ty ≤ k ∧ k < c1 ty

mutual

theorem genIdsCost_ids : ∀ (ctr : String → ℕ) (p : RawPlan),
    (∀ ty, ctr ty ≤ (genIdsCost ctr p).2 ty) ∧
      (∀ s ∈ (genIdsCost ctr p).1.idsOf, IdIn ctr (genIdsCost ctr p).2 s) ∧
      (genIdsCost ctr p).1.idsOf.Nodup
  | ctr, .node ty tc pr fl rn ps => by
    obtain ⟨hmono, hmem, hnd⟩ :=
      genIdsCostList_ids (fun s => if s = ty then ctr ty + 1 else ctr s) ps
    have hup : ∀ ty0, ctr ty0 ≤ (if ty0 = ty then ctr ty + 1 else ctr ty0) := by
      intro ty0
      by_cases h : ty0 = ty
      · rw [if_pos h, h]
        omega
      · rw [if_neg h]
    refine ⟨?_, ?_, ?_⟩
    · intro ty0
      exact le_trans (hup ty0) (hmono ty0)
    · intro s hs
      rw [show (genIdsCost ctr (.node ty tc pr fl rn ps)).1.idsOf =
        (ty ++ "_" ++ Nat.repr (ctr ty)) ::
          idsOfList (genIdsCostList (fun s => if s = ty then ctr ty + 1 else ctr s) ps).1
        from rfl, List.mem_cons] at hs
      rcases hs with hs | hs
      · refine ⟨ty, ctr ty, hs, le_refl _, ?_⟩
        show ctr ty < (genIdsCostList (fun s => if s = ty then ctr ty + 1 else ctr s) ps).2 ty
        have h1 := hmono ty
        rw [if_pos rfl] at h1
        omega
      · obtain ⟨ty1, k1, he1, hge1, hlt1⟩ := hmem s hs
        exact ⟨ty1, k1, he1, le_trans (hup ty1) hge1, hlt1⟩
    · rw [show (genIdsCost ctr (.node ty tc pr fl rn ps)).1.idsOf =
        (ty ++ "_" ++ Nat.repr (ctr ty)) ::
          idsOfList (genIdsCostList (fun s => if s = ty then ctr ty + 1 else ctr s) ps).1
        from rfl, List.nodup_cons]
      refine ⟨?_, hnd⟩
      intro hin
      obtain ⟨ty1, k1, he1, hge1, _⟩ := hmem _ hin
      obtain ⟨hty, hk⟩ := idInj ty ty1 (ctr ty) k1 he1
      subst hty
      have hge2 : ctr ty + 1 ≤ k1 := by simpa using hge1
      omega

theorem genIdsCostList_ids : ∀ (ctr : String → ℕ) (ps : List RawPlan),
    (∀ ty, ctr ty ≤ (genIdsCostList ctr ps).2 ty) ∧
      (∀ s ∈ idsOfList (genIdsCostList ctr ps).1, IdIn ctr (genIdsCostList ctr ps).2 s) ∧
      (idsOfList (genIdsCostList ctr ps).1).Nodup
  | ctr, [] => ⟨fun _ => le_refl _, fun s hs => absurd hs (List.not_mem_nil s), List.nodup_nil⟩
  | ctr, p :: rest => by
    obtain ⟨hm1, hs1, hn1⟩ := genIdsCost_ids ctr p
    obtain ⟨hm2, hs2, hn2⟩ := genIdsCostList_ids (genIdsCost ctr p).2 rest
    have hsplit : idsOfList (genIdsCostList ctr (p :: rest)).1 =
        (genIdsCost ctr p).1.idsOf ++
          idsOfList (genIdsCostList (genIdsCost ctr p).2 rest).1 := rfl
    refine ⟨?_, ?_, ?_⟩
    · intro ty0
      exact le_trans (hm1 ty0) (hm2 ty0)
    · intro s hs
      rw [hsplit, List.mem_append] at hs
      rcases hs with hs | hs
      · obtain ⟨ty1, k1, he1, hge1, hlt1⟩ := hs1 s hs
        exact ⟨ty1, k1, he1, hge1, lt_of_lt_of_le hlt1 (hm2 ty1)⟩
      · obtain ⟨ty1, k1, he1, hge1, hlt1⟩ := hs2 s hs
        exact ⟨ty1, k1, he1, le_trans (hm1 ty1) hge1, hlt1⟩
    · rw [hsplit]
      refine List.Nodup.append hn1 hn2 ?_
      intro s hsa hsb
      obtain ⟨ty1, k1, he1, _, hlt1⟩ := hs1 s hsa
      obtain ⟨ty2, k2, he2, hge2, _⟩ := hs2 s hsb
      obtain ⟨hty, hk⟩ := idInj ty1 ty2 k1 k2 (by rw [← he1, ← he2])
      rw [← hty] at hge2
      rw [← hk] at hge2
      omega

end

mutual

theorem genIdsCost_toRaw : ∀ (ctr : String → ℕ) (p : RawPlan),
    APlan.toRaw (genIdsCost ctr p).1 = p
  | ctr, .node ty tc pr fl rn ps => by
    show RawPlan.node ty tc pr fl rn
        (toRawList (genIdsCostList (fun s => if s = ty then ctr ty + 1 else ctr s) ps).1) = _
    rw [genIdsCostList_toRaw]

theorem genIdsCostList_toRaw : ∀ (ctr : String → ℕ) (ps : List RawPlan),
    toRawList (genIdsCostList ctr ps).1 = ps
  | _, [] => rfl
  | ctr, p :: rest => by
    show APlan.toRaw (genIdsCost ctr p).1 ::
        toRawList (genIdsCostList (genIdsCost ctr p).2 rest).1 = _
    rw [genIdsCost_toRaw, genIdsCostList_toRaw]

end

/-- Claim C9: identifier assignment gives every node an identifier of the
shape kind_k with k a counter of at least 1, two distinct nodes never
receive the same identifier (the pre-order identifier list has no
duplicate), the annotation keeps the raw plan recoverable unchanged, and
re-running the assignment on the unchanged plan yields the identical
annotated plan (idempotence); assignment is a pure function, hence
deterministic. -/
theorem C9_identifier_assignment (p : RawPlan) :
    (annotatePlan p).idsOf.Nodup ∧
      (∀ s ∈ (annotatePlan p).idsOf, ∃ ty k, s = ty ++ "_" ++ Nat.repr k ∧ 1 ≤ k) ∧
      (annotatePlan p).toRaw = p ∧
      annotatePlan ((annotatePlan p).toRaw) = annotatePlan p := by
  obtain ⟨_, hmem, hnd⟩ := genIdsCost_ids (fun _ => 1) p
  have ht : (annotatePlan p).toRaw = p := genIdsCost_toRaw (fun _ => 1) p
  refine ⟨hnd, ?_, ht, by rw [ht]⟩
  intro s hs
  obtain ⟨ty, k, he, hge, _⟩ := hmem s hs
  exact ⟨ty, k, he, hge⟩


theorem lookupPy_cons (k1 : PKey) (v1 : Py) (rest : List (PKey × Py)) (k : PKey) :
    lookupPy ((k1, v1) :: rest) k = if k1 == k then some v1 else lookupPy rest k := by
  by_cases h : k1 == k <;> simp [lookupPy, List.find?_cons, h]

theorem lookupPy_eq_none : ∀ (l : List (PKey × Py)) (k : PKey),
    (∀ e ∈ l, ¬ e.1 = k) → lookupPy l k = none
  | [], _, _ => rfl
  | (k1, v1) :: rest, k, h => by
    rw [lookupPy_cons]
    have hk : ¬ (k1 == k) = true := by
      simpa using h (k1, v1) (List.mem_cons_self _ _)
    rw [if_neg hk]
    exact lookupPy_eq_none rest k (fun e he => h e (List.mem_cons_of_mem _ he))

theorem lookupPy_isSome_of_mem : ∀ (l : List (PKey × Py)) (k : PKey),
    (∃ v, (k, v) ∈ l) → (lookupPy l k).isSome
  | [], _, h => by
    obtain ⟨v, hv⟩ := h
    exact absurd hv (List.not_mem_nil _)
  | (k1, v1) :: rest, k, h => by
    rw [lookupPy_cons]
    by_cases hk : (k1 == k) = true
    · rw [if_pos hk]
      rfl
    · rw [if_neg hk]
      obtain ⟨v, hv⟩ := h
      rw [List.mem_cons] at hv
      rcases hv with hv | hv
      · exfalso
        apply hk
        have : k1 = k := (congrArg Prod.fst hv).symm
        simp [this]
      · exact lookupPy_isSome_of_mem rest k ⟨v, hv⟩

theorem findVals_some : ∀ (l : List (PKey × Py)) (key : String),
    (∃ e ∈ l, ∃ d, e.2 = Py.dict d ∧ (findValueInNestedDict (Py.dict d) key).isSome) →
      (findInDictValues l key).isSome
  | [], _, h => absurd h (by simp)
  | (k, v) :: rest, key, h => by
    rw [findInDictValues_cons]
    obtain ⟨e, he, d, hed, hfind⟩ := h
    rw [List.mem_cons] at he
    rcases he with he | he
    · have hv : v = Py.dict d := by
        rw [he] at hed
        exact hed
      subst hv
      dsimp only
      obtain ⟨r, hr⟩ := Option.isSome_iff_exists.mp hfind
      rw [hr]
      rfl
    · cases v with
      | dict d0 =>
        dsimp only
        cases hf : findValueInNestedDict (Py.dict d0) key with
        | some r => rfl
        | none => exact findVals_some rest key ⟨e, he, d, hed, hfind⟩
      | str s =>
        dsimp only
        exact findVals_some rest key ⟨e, he, d, hed, hfind⟩
      | num q =>
        dsimp only
        exact findVals_some rest key ⟨e, he, d, hed, hfind⟩
      | arr a =>
        dsimp only
        exact findVals_some rest key ⟨e, he, d, hed, hfind⟩
      | tup a =>
        dsimp only
        exact findVals_some rest key ⟨e, he, d, hed, hfind⟩

theorem dictScan_changed_nodeType (b : List (PKey × Py)) (na nb : String)
    (hb : lookupPy b (PKey.ks "Node Type") = some (Py.str nb)) (hne : na ≠ nb) :
    ∀ a : List (PKey × Py), (PKey.ks "Node Type", Py.str na) ∈ a →
      ∃ d, (PKey.ks "Node Type", d) ∈ (dictScan b a).changed
  | [], ha => absurd ha (List.not_mem_nil _)
  | (k, v) :: rest, ha => by
    rw [dictScan_cons]
    rw [List.mem_cons] at ha
    rcases ha with ha | ha
    · have hk : k = PKey.ks "Node Type" := (congrArg Prod.fst ha).symm
      have hv : v = Py.str na := (congrArg Prod.snd ha).symm
      subst hk
      subst hv
      rw [hb]
      have hbe : (na == nb) = false := by
        simpa using hne
      show ∃ dd, (PKey.ks "Node Type", dd) ∈
        (if (objDiff (Py.str na) (Py.str nb)).2 < 1
         then (PKey.ks "Node Type", (objDiff (Py.str na) (Py.str nb)).1) ::
           (dictScan b rest).changed
         else (dictScan b rest).changed)
      rw [objDiff_str, hbe]
      rw [if_neg (by simp : ¬ (false = true))]
      rw [if_pos (show ((Py.str nb, (0 : ℚ))).2 < 1 by norm_num)]
      exact ⟨Py.str nb, List.mem_cons_self _ _⟩
    · obtain ⟨d, hd⟩ := dictScan_changed_nodeType b na nb hb hne rest ha
      cases hlk : lookupPy b k with
      | none => exact ⟨d, hd⟩
      | some w =>
        show ∃ dd, (PKey.ks "Node Type", dd) ∈
          (if (objDiff v w).2 < 1
           then (k, (objDiff v w).1) :: (dictScan b rest).changed
           else (dictScan b rest).changed)
        by_cases hlt : (objDiff v w).2 < 1
        · rw [if_pos hlt]
          exact ⟨d, List.mem_cons_of_mem _ hd⟩
        · rw [if_neg hlt]
          exact ⟨d, hd⟩

theorem emitDictDiff_changed_entry (b : List (PKey × Py)) (s : ℚ)
    (added changed : List (PKey × Py)) (removed : List PKey) (h : changed ≠ []) :
    ∃ pre post : List (PKey × Py),
      emitDictDiff b s added changed removed =
        Py.dict (pre ++ (PKey.symUpd, Py.dict changed) :: post) ∧
      (∀ e ∈ pre, e.1 = PKey.symIns) ∧ (∀ e ∈ post, e.1 = PKey.symDel) := by
  have hch : changed.isEmpty = false := by
    cases changed
    · exact absurd rfl h
    · rfl
  unfold emitDictDiff
  rw [if_neg (fun hcon => by rw [hch] at hcon; exact absurd hcon.2.2.1 (by simp)),
    if_neg (fun hcon => by rw [hch] at hcon; exact absurd hcon.2.2.1 (by simp))]
  refine ⟨if added.isEmpty then [] else [(PKey.symIns, Py.dict added)],
    if removed.isEmpty then [] else [(PKey.symDel, Py.arr (removed.map pkeyToPy))],
    ?_, ?_, ?_⟩
  · rw [hch]
    simp [List.append_assoc]
  · intro e he
    by_cases hc : added.isEmpty
    · rw [if_pos hc] at he
      exact absurd he (List.not_mem_nil e)
    · rw [if_neg hc, List.mem_singleton] at he
      rw [he]
  · intro e he
    by_cases hc : removed.isEmpty
    · rw [if_pos hc] at he
      exact absurd he (List.not_mem_nil e)
    · rw [if_neg hc, List.mem_singleton] at he
      rw [he]



/-- Claim C1 amended: an operator-kind substitution is always detected — for
any two QEP dicts that both carry a Node Type entry, with different kind
strings, the equivalence check returns false.  (Insertions and deletions of
whole subtrees inside a Plans list are NOT detected: the explicit jsondiff
buries them in lists of (position, value) tuples and position lists, and
findValueInNestedDict recurses into dict values only, so such pairs are
judged equivalent; see the counterexample.) -/
theorem C1_substitution_detected (a b : List (PKey × Py)) (na nb : String)
    (ha : (PKey.ks "Node Type", Py.str na) ∈ a)
    (hb : lookupPy b (PKey.ks "Node Type") = some (Py.str nb))
    (hne : na ≠ nb) :
    isEquivalent (Py.dict a) (Py.dict b) = false := by
  obtain ⟨d, hd⟩ := dictScan_changed_nodeType b na nb hb hne a ha
  have hne2 : (dictScan b a).changed ≠ [] := List.ne_nil_of_mem hd
  obtain ⟨pre, post, hemit, hpre, hpost⟩ := emitDictDiff_changed_entry b
    (if (dictScan b a).nremoved + (dictScan b a).nmatched + (addedEntries a b).length = 0
     then 1
     else (dictScan b a).smatched /
       (((dictScan b a).nremoved + (dictScan b a).nmatched + (addedEntries a b).length : ℕ) : ℚ))
    (addedEntries a b) (dictScan b a).changed (dictScan b a).removed hne2
  have hcomp : compareQEPs (Py.dict a) (Py.dict b) =
      Py.dict (pre ++ (PKey.symUpd, Py.dict (dictScan b a).changed) :: post) := by
    unfold compareQEPs
    simp only [objDiff_dict]
    exact hemit
  have hlk : lookupPy (pre ++ (PKey.symUpd, Py.dict (dictScan b a).changed) :: post)
      (PKey.ks "Node Type") = none := by
    apply lookupPy_eq_none
    intro e he
    rw [List.mem_append, List.mem_cons] at he
    rcases he with he | he | he
    · rw [hpre e he]
      simp
    · rw [he]
      simp
    · rw [hpost e he]
      simp
  have hsome : (findInDictValues
      (pre ++ (PKey.symUpd, Py.dict (dictScan b a).changed) :: post) "Node Type").isSome := by
    apply findVals_some
    refine ⟨(PKey.symUpd, Py.dict (dictScan b a).changed),
      List.mem_append_right _ (List.mem_cons_self _ _), (dictScan b a).changed, rfl, ?_⟩
    rw [findValueInNestedDict_dict]
    have hl2 : (lookupPy (dictScan b a).changed (PKey.ks "Node Type")).isSome :=
      lookupPy_isSome_of_mem _ _ ⟨d, hd⟩
    obtain ⟨r, hr⟩ := Option.isSome_iff_exists.mp hl2
    rw [hr]
    rfl
  obtain ⟨r, hr⟩ := Option.isSome_iff_exists.mp hsome
  unfold isEquivalent
  rw [hcomp, findValueInNestedDict_dict, hlk, hr]
  rfl



/-- A QEP dict with one child plan: a Hash Join over a Seq Scan. -/
def qepOneChild : Py :=
  .dict [(.ks "Node Type", .str "Hash Join"), (.ks "Total Cost", .num 20),
    (.ks "Plans", .arr [
      .dict [(.ks "Node Type", .str "Seq Scan"), (.ks "Total Cost", .num 10)]])]

/-- The same QEP with a second child subtree inserted into the Plans list,
whose node carries the operator kind Materialize, absent from the first
plan. -/
def qepTwoChildren : Py :=
  .dict [(.ks "Node Type", .str "Hash Join"), (.ks "Total Cost", .num 20),
    (.ks "Plans", .arr [
      .dict [(.ks "Node Type", .str "Seq Scan"), (.ks "Total Cost", .num 10)],
      .dict [(.ks "Node Type", .str "Materialize"), (.ks "Total Cost", .num 3)]])]

/-- C1 counterexample: inserting a whole subtree (operator kind Materialize)
into the Plans list, or deleting it again, leaves the equivalence check
reporting EQUIVALENT in both directions, even though the plans differ and
the jsondiff itself is nonempty: the explicit diff renders list insertions
as (position, value) tuples inside a list and deletions as a list of
positions, and findValueInNestedDict recurses into dict values only, so it
never reaches the Node Type of the inserted or deleted subtree. -/
theorem C1_insert_delete_invisible :
    isEquivalent qepOneChild qepTwoChildren = true ∧
      isEquivalent qepTwoChildren qepOneChild = true ∧
      pyBeq qepOneChild qepTwoChildren = false ∧
      pyBeq (compareQEPs qepOneChild qepTwoChildren) (Py.dict []) = false := by
  refine ⟨?_, ?_, ?_, ?_⟩
  · set_option maxRecDepth 40000 in with_unfolding_all decide
  · set_option maxRecDepth 40000 in with_unfolding_all decide
  · set_option maxRecDepth 40000 in with_unfolding_all decide
  · set_option maxRecDepth 40000 in with_unfolding_all decide

/-- Witness: a Hash Join root compared against a Merge Join root is reported
non-equivalent by the amended substitution theorem at a concrete input. -/
theorem C1_substitution_detected_witness :
    (PKey.ks "Node Type", Py.str "Hash Join") ∈
        [((PKey.ks "Node Type" : PKey), Py.str "Hash Join")] ∧
      lookupPy [(PKey.ks "Node Type", Py.str "Merge Join")] (PKey.ks "Node Type") =
        some (Py.str "Merge Join") ∧
      "Hash Join" ≠ "Merge Join" ∧
      isEquivalent (Py.dict [(PKey.ks "Node Type", Py.str "Hash Join")])
        (Py.dict [(PKey.ks "Node Type", Py.str "Merge Join")]) = false :=
  ⟨List.mem_cons_self _ _, rfl, by decide,
    C1_substitution_detected _ _ _ _ (List.mem_cons_self _ _) rfl (by decide)⟩

end QPV
